import Mathlib

/-!
# lnd-log-clear: a verification development of `clearlogs.go`

A shallow embedding of the retention utility: the bbolt store is an explicit
state (a list of named buckets, each a list of key/value entries in cursor
order), Go strings and byte slices are lists of bytes, `int64` values are
integers reduced into the 64-bit two's complement range, and the lines the
program prints are the elements of an output log.
-/

namespace ClearLogs

/-! ## Bytes, strings and 64-bit integers -/

/-- One byte. -/
abbrev Byte := Fin 256

/-- A Go `string` or `[]byte`: a finite sequence of bytes. -/
abbrev GoString := List Byte

/-- The bytes of an ASCII literal (every character of the literals used in
this development is below 128, where the byte is the character code). -/
def ascii (s : String) : GoString := s.toList.map (fun c => Fin.ofNat c.toNat)

/-- Conversion of an integer to `int64`: reduction modulo 2^64 into
`[-2^63, 2^63)`. Go's `int64(u)` for a `uint64` value `u`, and the result of
every `int64` arithmetic operation, is this reduction of the exact value. -/
def int64 (x : Int) : Int := (x + 2 ^ 63) % 2 ^ 64 - 2 ^ 63

/-- The values an `int64` can hold. -/
def InInt64 (x : Int) : Prop := -(2 : Int) ^ 63 ≤ x ∧ x < 2 ^ 63

instance (x : Int) : Decidable (InInt64 x) := by unfold InInt64; infer_instance

/-- Equality of results is decidable when it is on errors and on values. -/
instance instDecidableEqExcept {ε α : Type} [DecidableEq ε] [DecidableEq α] :
    DecidableEq (Except ε α)
  | .ok a, .ok b =>
    if h : a = b then isTrue (congrArg Except.ok h) else isFalse (fun h2 => h (Except.ok.inj h2))
  | .error a, .error b =>
    if h : a = b then isTrue (congrArg Except.error h)
    else isFalse (fun h2 => h (Except.error.inj h2))
  | .ok _, .error _ => isFalse (fun h => Except.noConfusion h)
  | .error _, .ok _ => isFalse (fun h => Except.noConfusion h)

/-- Go's `binary.BigEndian.Uint64(b)`: the first eight bytes of `b`, the first
one most significant; it panics (here `none`) on a shorter slice. -/
def BigEndian.Uint64 : List Byte → Option Nat
  | b0 :: b1 :: b2 :: b3 :: b4 :: b5 :: b6 :: b7 :: _ =>
    some (b7.val ||| b6.val <<< 8 ||| b5.val <<< 16 ||| b4.val <<< 24 |||
      b3.val <<< 32 ||| b2.val <<< 40 ||| b1.val <<< 48 ||| b0.val <<< 56)
  | _ => none

/-- The number a byte string denotes when read as a big-endian base-256
numeral (the reading the specification gives of a timestamp key). -/
def bigEndianValue (k : List Byte) : Nat := k.foldl (fun acc b => acc * 256 + b.val) 0

/-- The timestamp of a key as the specification reads it: the big-endian
unsigned value, reinterpreted as `int64`. -/
def keyTimestamp (k : List Byte) : Int := int64 (bigEndianValue k)

/-! ## The store -/

/-- A bbolt bucket holding key/value pairs, as `circuit-fwd-log` does: the
entries in cursor (key) order. -/
abbrev Bucket := List (List Byte × List Byte)

/-- The buckets of a database file (or of an open transaction), by name. -/
abbrev Store := List (GoString × Bucket)

/-- Errors of the storage layer. -/
inductive BoltError where
  /-- `bolt.ErrBucketNotFound`, of `tx.DeleteBucket`. -/
  | ErrBucketNotFound
  /-- The error of a commit that the file system rejects. -/
  | commitFailed
  deriving DecidableEq, Repr

/-- `bucket.ForEach(fn)`: `fn` is called on every entry in cursor order; the
variables the closure updates are the threaded state `σ`. -/
def Bucket.ForEach {σ : Type} (b : Bucket) (fn : σ → List Byte → List Byte → σ) (init : σ) : σ :=
  b.foldl (fun s e => fn s e.1 e.2) init

/-- `bucket.Delete(key)` in a writable transaction: the entry stored under
`key` is removed; a key that is not there leaves the bucket as it is. On a
bucket of key/value pairs the call returns no error. -/
def Bucket.Delete (b : Bucket) (key : List Byte) : Bucket :=
  b.filter (fun e => decide (e.1 ≠ key))

/-- `tx.Bucket(name)`: the bucket of that name, `none` for Go's `nil`. -/
def Tx.Bucket (tx : Store) (name : GoString) : Option Bucket :=
  (tx.find? (fun e => decide (e.1 = name))).map Prod.snd

/-- `tx.DeleteBucket(name)`: removes the bucket with all its entries, and
fails with `ErrBucketNotFound` when there is none of that name. -/
def Tx.DeleteBucket (tx : Store) (name : GoString) : Except BoltError Store :=
  match Tx.Bucket tx name with
  | none => .error .ErrBucketNotFound
  | some _ => .ok (tx.filter (fun e => decide (e.1 ≠ name)))

/-- The effect on the transaction of mutating, through the pointer that
`tx.Bucket(name)` returned, the bucket of that name into `b`. -/
def Tx.setBucket (tx : Store) (name : GoString) (b : ClearLogs.Bucket) : Store :=
  tx.map (fun e => if e.1 = name then (e.1, b) else e)

/-- One line (one `fmt.Printf` or `fmt.Println` call) of the program's output,
with the values formatted into it. -/
inductive Line where
  /-- The text of `printUsage()`. -/
  | usage
  /-- `Error: Invalid duration '%s'`. -/
  | invalidDuration (durationStr : GoString)
  /-- `Valid formats: 1d, 1w, 2w, 1m, 3m, 6m, 1y`. -/
  | validFormats
  /-- `Error: No buckets specified`. -/
  | noBuckets
  /-- `Error opening database: %v`. -/
  | openError
  /-- `Clearing entries older than %v...`. -/
  | clearingOlderThan (olderThan : Int)
  /-- `Clearing entire buckets...`. -/
  | clearingEntire
  /-- `Database cleanup complete`. -/
  | complete
  /-- `Bucket '%s' doesn't exist (already empty)`, from `clearBuckets`. -/
  | bucketAlreadyEmpty (bucketName : GoString)
  /-- `Failed to delete bucket '%s': %v`. -/
  | deleteFailed (bucketName : GoString) (err : BoltError)
  /-- `Deleted entire bucket: %s`. -/
  | deletedBucket (bucketName : GoString)
  /-- `Bucket '%s' doesn't exist`, from `clearOldEntries`. -/
  | bucketMissing (bucketName : GoString)
  /-- `Deleted %d forwarding events from '%s' (older than %v)`. -/
  | deletedEvents (deleted : Nat) (bucketName : GoString) (olderThan : Int)
  /-- `Time-based cleanup not supported for '%s' (would delete entire bucket)`. -/
  | notSupportedWouldDelete (bucketName : GoString)
  /-- `Use without --older-than flag to delete all`. -/
  | useWithoutFlag
  /-- `Time-based cleanup not supported for '%s'`. -/
  | notSupported (bucketName : GoString)
  deriving DecidableEq, Repr

/-- The state threaded through the body of an update transaction: the buckets
of the transaction and the lines printed so far. -/
abbrev TxState := Store × List Line

/-- `db.Update(fn)`: `fn` runs on a writable transaction; when it returns no
error the transaction is committed, and `commitOk` says whether the commit
succeeds. A failed commit (or an error of `fn`) leaves the database as it
was; what `fn` printed stays printed. The result is the database afterwards,
the lines printed and the error returned. -/
def DB.Update (db : Store) (commitOk : Bool) (fn : Store → TxState × Option BoltError) :
    TxState × Option BoltError :=
  match fn db with
  | ((tx, out), none) => if commitOk then ((tx, out), none) else ((db, out), some .commitFailed)
  | ((_, out), some e) => ((db, out), some e)

/-! ## `clearForwardingLog` -/

/-- `clearForwardingLog(bucket, cutoffNano)`: the bucket afterwards and the
returned count. The first pass collects the 8-byte keys whose timestamp is
below the cutoff, the second deletes each collected key and counts it. -/
def clearForwardingLog (bucket : Bucket) (cutoffNano : Int) : Bucket × Nat :=
  let keysToDelete : List (List Byte) :=
    bucket.ForEach (fun keysToDelete k _ =>
      if k.length = 8 then
        match BigEndian.Uint64 k with
        | some u => if int64 u < cutoffNano then keysToDelete ++ [k] else keysToDelete
        | none => keysToDelete
      else keysToDelete) []
  keysToDelete.foldl (fun st key => (st.1.Delete key, st.2 + 1)) (bucket, 0)

/-- The entries `clearForwardingLog` is specified to delete: an 8-byte key
whose timestamp is strictly below the cutoff. -/
def expired (cutoffNano : Int) (k : List Byte) : Prop :=
  k.length = 8 ∧ keyTimestamp k < cutoffNano

instance (c : Int) (k : List Byte) : Decidable (expired c k) := by
  unfold expired; infer_instance

/-! ## `clearBuckets` and `clearOldEntries` -/

/-- One iteration of the loop of `clearBuckets` (source lines 71-85). -/
def clearBucketsStep (st : TxState) (bucketName : GoString) : TxState :=
  match Tx.Bucket st.1 bucketName with
  | none => (st.1, st.2 ++ [Line.bucketAlreadyEmpty bucketName])
  | some _ =>
    match Tx.DeleteBucket st.1 bucketName with
    | .error err => (st.1, st.2 ++ [Line.deleteFailed bucketName err])
    | .ok tx => (tx, st.2 ++ [Line.deletedBucket bucketName])

/-- `clearBuckets(db, buckets)`: the database and the output afterwards. The
closure always returns `nil`, and the error `db.Update` returns is dropped. -/
def clearBuckets (db : Store) (buckets : List GoString) (commitOk : Bool) : TxState :=
  (DB.Update db commitOk (fun tx => (buckets.foldl clearBucketsStep (tx, []), none))).1

/-- One iteration of the loop of `clearOldEntries` (source lines 96-116). -/
def clearOldEntriesStep (cutoffNano olderThan : Int) (st : TxState) (bucketName : GoString) :
    TxState :=
  match Tx.Bucket st.1 bucketName with
  | none => (st.1, st.2 ++ [Line.bucketMissing bucketName])
  | some bucket =>
    if bucketName = ascii "circuit-fwd-log" then
      let r := clearForwardingLog bucket cutoffNano
      (Tx.setBucket st.1 bucketName r.1, st.2 ++ [Line.deletedEvents r.2 bucketName olderThan])
    else if bucketName = ascii "closed-chan-bucket" ∨
        bucketName = ascii "historical-chan-bucket" then
      (st.1, st.2 ++ [Line.notSupportedWouldDelete bucketName, Line.useWithoutFlag])
    else
      (st.1, st.2 ++ [Line.notSupported bucketName])

/-- The transaction after `clearForwardingLog` has run on its
`circuit-fwd-log` bucket; without such a bucket, the transaction as it is. -/
def pruneFwdLog (cutoffNano : Int) (tx : Store) : Store :=
  match Tx.Bucket tx (ascii "circuit-fwd-log") with
  | none => tx
  | some bucket =>
    Tx.setBucket tx (ascii "circuit-fwd-log") (clearForwardingLog bucket cutoffNano).1

/-- The cutoff `time.Now().Add(-olderThan).UnixNano()`, where `now` is the
wall clock reading in nanoseconds since the Unix epoch. -/
def cutoffNanoOf (now olderThan : Int) : Int := int64 (now + int64 (-olderThan))

/-- The body of the update transaction of `clearOldEntries` for a given
cutoff, on the buckets of the transaction. -/
def clearOldEntriesTx (cutoffNano olderThan : Int) (buckets : List GoString) (tx : Store) :
    TxState :=
  buckets.foldl (clearOldEntriesStep cutoffNano olderThan) (tx, [])

/-- `clearOldEntries(db, buckets, olderThan)`: the database and the output
afterwards. The cutoff is computed once, before the transaction. -/
def clearOldEntries (db : Store) (buckets : List GoString) (olderThan : Int) (now : Int)
    (commitOk : Bool) : TxState :=
  let cutoffNano := cutoffNanoOf now olderThan
  (DB.Update db commitOk (fun tx => (clearOldEntriesTx cutoffNano olderThan buckets tx, none))).1

/-! ## `parseDuration` -/

/-- The two errors of `strconv`. -/
inductive NumError where
  | ErrSyntax
  | ErrRange
  deriving DecidableEq, Repr

/-- The digit loop of `strconv.ParseUint(s, 10, 64)`: `n` is the `uint64`
accumulated so far. A byte that is not a decimal digit is a syntax error; a
value that leaves the `uint64` range is a range error. -/
def parseUintLoop : List Byte → Nat → Except NumError Nat
  | [], n => .ok n
  | c :: cs, n =>
    if 48 ≤ c.val ∧ c.val ≤ 57 then
      let d := c.val - 48
      if n ≥ (2 ^ 64 - 1) / 10 + 1 then .error .ErrRange
      else
        let n10 := (n * 10) % 2 ^ 64
        let n1 := (n10 + d) % 2 ^ 64
        if n1 < n10 ∨ n1 > 2 ^ 64 - 1 then .error .ErrRange
        else parseUintLoop cs n1
    else .error .ErrSyntax

/-- `strconv.ParseUint(s, 10, 64)`. -/
def ParseUint (s : GoString) : Except NumError Nat :=
  if s = [] then .error .ErrSyntax else parseUintLoop s 0

/-- `strconv.ParseInt(s, 10, 0)` with a 64-bit `int`: an optional sign, then
`ParseUint`, then the range check against 2^63. (Go carries a range error of
`ParseUint` on with the value 2^64-1, which the range check rejects again.) -/
def ParseInt (s : GoString) : Except NumError Int :=
  match s with
  | [] => .error .ErrSyntax
  | c :: rest =>
    let neg : Bool := decide (c.val = 45)
    let body := if c.val = 43 ∨ c.val = 45 then rest else s
    match ParseUint body with
    | .error e => .error e
    | .ok un =>
      if neg = false ∧ un ≥ 2 ^ 63 then .error .ErrRange
      else if neg = true ∧ un > 2 ^ 63 then .error .ErrRange
      else if neg then .ok (int64 (-(int64 un))) else .ok (int64 un)

/-- `strconv.Atoi(s)`, which the library documents as `ParseInt(s, 10, 0)`
converted to `int` (64 bits wide here). -/
def Atoi (s : GoString) : Except NumError Int := ParseInt s

/-- `time.Hour`, in nanoseconds. -/
def Hour : Int := 3600000000000

/-- The errors `parseDuration` returns. -/
inductive DurationError where
  /-- `invalid duration`: fewer than two bytes. -/
  | invalidDuration
  /-- The error of `strconv.Atoi`, passed on. -/
  | atoi (err : NumError)
  /-- `invalid unit '%s', use: d, w, m, y`. -/
  | invalidUnit (unit : GoString)
  deriving DecidableEq, Repr

/-- `parseDuration(s)`: a `time.Duration` is an `int64` count of nanoseconds,
and each multiplication is an `int64` multiplication. -/
def parseDuration (s : GoString) : Except DurationError Int :=
  if s.length < 2 then .error .invalidDuration
  else
    let numStr := s.take (s.length - 1)
    let unit := s.drop (s.length - 1)
    match Atoi numStr with
    | .error err => .error (.atoi err)
    | .ok num =>
      if unit = ascii "d" then .ok (int64 (int64 (int64 num * 24) * Hour))
      else if unit = ascii "w" then .ok (int64 (int64 (int64 (int64 num * 7) * 24) * Hour))
      else if unit = ascii "m" then .ok (int64 (int64 (int64 (int64 num * 30) * 24) * Hour))
      else if unit = ascii "y" then .ok (int64 (int64 (int64 (int64 num * 365) * 24) * Hour))
      else .error (.invalidUnit unit)

/-- The length of a unit in nanoseconds, as the usage text and the
specification give it: a day, a week, a 30-day month, a 365-day year. -/
def unitNanos (unit : GoString) : Option Int :=
  if unit = ascii "d" then some (24 * 3600 * 10 ^ 9)
  else if unit = ascii "w" then some (7 * 24 * 3600 * 10 ^ 9)
  else if unit = ascii "m" then some (30 * 24 * 3600 * 10 ^ 9)
  else if unit = ascii "y" then some (365 * 24 * 3600 * 10 ^ 9)
  else none

/-- The number denoted by the decimal digits `ds` written after a numeral of
value `n`. -/
def decimalFrom (n : Nat) (ds : List Byte) : Nat :=
  ds.foldl (fun acc c => acc * 10 + (c.val - 48)) n

/-- The number a string of decimal digits denotes. -/
def decimalValue (ds : List Byte) : Nat := decimalFrom 0 ds

/-- A non-empty string of decimal digits. -/
def IsDigits (ds : List Byte) : Prop := ds ≠ [] ∧ ∀ c ∈ ds, 48 ≤ c.val ∧ c.val ≤ 57

/-- The string `t` is a decimal numeral of the integer `n`: digits, with an
optional `+` or `-` in front. -/
inductive Denotes : GoString → Int → Prop where
  | unsigned (ds : List Byte) (h : IsDigits ds) : Denotes ds (decimalValue ds)
  | plus (ds : List Byte) (h : IsDigits ds) : Denotes ((43 : Byte) :: ds) (decimalValue ds)
  | minus (ds : List Byte) (h : IsDigits ds) : Denotes ((45 : Byte) :: ds) (-(decimalValue ds : Int))

/-- What the specification calls a valid integer: a decimal numeral of a value
that the 64-bit `int` holds. -/
def ValidInteger (t : GoString) : Prop := ∃ n, Denotes t n ∧ InInt64 n

/-! ## `main` -/

/-- `strings.HasPrefix(s, p)`. -/
def HasPrefix (s p : GoString) : Bool := decide (s.take p.length = p)

/-- `strings.TrimPrefix(s, p)`. -/
def TrimPrefix (s p : GoString) : GoString := if HasPrefix s p then s.drop p.length else s

/-- The flag loop of `main` (source lines 26-41) over the arguments from
`os.Args[2]` on: the duration string that failed to parse, or the final
`olderThan` and `bucketsToDelete`. -/
def parseFlags : List GoString → Int → List GoString → Except GoString (Int × List GoString)
  | [], olderThan, bucketsToDelete => .ok (olderThan, bucketsToDelete)
  | arg :: rest, olderThan, bucketsToDelete =>
    if HasPrefix arg (ascii "--older-than=") then
      let durationStr := TrimPrefix arg (ascii "--older-than=")
      match parseDuration durationStr with
      | .error _ => .error durationStr
      | .ok dur => parseFlags rest dur bucketsToDelete
    else parseFlags rest olderThan (bucketsToDelete ++ [arg])

/-- What a run of the program leaves behind. -/
structure Outcome where
  /-- The exit status of the process. -/
  exitCode : Nat
  /-- The lines printed. -/
  out : List Line
  /-- The buckets of the database file afterwards. -/
  db : Store
  deriving DecidableEq, Repr

/-- `main()` on the argument vector `args` (`os.Args`), the database file with
buckets `file`, the clock reading `now`, and the outcomes of opening the file
and of committing the transaction. -/
def main (args : List GoString) (file : Store) (now : Int) (openOk commitOk : Bool) : Outcome :=
  if args.length < 2 then ⟨1, [Line.usage], file⟩
  else
    match parseFlags (args.drop 2) 0 [] with
    | .error durationStr => ⟨1, [Line.invalidDuration durationStr, Line.validFormats], file⟩
    | .ok (olderThan, bucketsToDelete) =>
      if bucketsToDelete.length = 0 then ⟨1, [Line.noBuckets, Line.usage], file⟩
      else if openOk = false then ⟨1, [Line.openError], file⟩
      else if olderThan > 0 then
        let r := clearOldEntries file bucketsToDelete olderThan now commitOk
        ⟨0, [Line.clearingOlderThan olderThan] ++ r.2 ++ [Line.complete], r.1⟩
      else
        let r := clearBuckets file bucketsToDelete commitOk
        ⟨0, [Line.clearingEntire] ++ r.2 ++ [Line.complete], r.1⟩

/-- A database for the examples: a forwarding log with a 4-byte key and the
keys for the timestamps 100, 200 and 300, and a closed-channel bucket. -/
def exampleDB : Store :=
  [(ascii "circuit-fwd-log",
      [([0, 0, 0, 0], [9]), ([0, 0, 0, 0, 0, 0, 0, 100], [1]),
       ([0, 0, 0, 0, 0, 0, 0, 200], [2]), ([0, 0, 0, 0, 0, 0, 1, 44], [3])]),
   (ascii "closed-chan-bucket", [([1, 2, 3], [4])])]

/-! ## Key encoding, key order and the shape of the output -/

/-- Modelled from the spec: the `encode` of the Timestamp Key Codec (section
4.1), which this repository does not contain (the keys are written by the
program that owns the database). The key of a timestamp is the big-endian
encoding, on 8 bytes, of the value reinterpreted as unsigned 64-bit. -/
def encode (timestampNanos : Int) : List Byte :=
  let u := (timestampNanos % 2 ^ 64).toNat
  [Fin.ofNat (u / 2 ^ 56), Fin.ofNat (u / 2 ^ 48), Fin.ofNat (u / 2 ^ 40),
   Fin.ofNat (u / 2 ^ 32), Fin.ofNat (u / 2 ^ 24), Fin.ofNat (u / 2 ^ 16),
   Fin.ofNat (u / 2 ^ 8), Fin.ofNat u]

/-- The timestamp `clearForwardingLog` reads from a key (source line 130):
`int64(binary.BigEndian.Uint64(k))`, `none` where the read would panic. -/
def decode (k : List Byte) : Option Int :=
  match BigEndian.Uint64 k with
  | some u => some (int64 (u : Int))
  | none => none

/-- The key order of the store, `bytes.Compare(a, b) < 0`: byte-wise
lexicographic, a proper initial segment before its extensions. -/
def bytesLess : List Byte → List Byte → Bool
  | [], [] => false
  | [], _ :: _ => true
  | _ :: _, [] => false
  | a :: as, b :: bs => if a < b then true else if b < a then false else bytesLess as bs

/-- The first byte of the key is `0x80` or greater: the top bit of the 64-bit
value is set. -/
def topBitSet : List Byte → Bool
  | b :: _ => decide (128 ≤ b.val)
  | [] => false

/-- A bucket as the store keeps it: the entries in strictly ascending key
order. -/
def Bucket.Sorted (b : Bucket) : Prop := b.Pairwise (fun x y => bytesLess x.1 y.1 = true)

/-- The entries that `clearForwardingLog` deletes are an initial segment of
the bucket in its key order: the first `n` entries are deleted and every
later one is kept. -/
def deletedIsPrefix (bucket : Bucket) (cutoffNano : Int) : Prop :=
  ∃ n : Nat, (∀ e ∈ bucket.take n, e ∉ (clearForwardingLog bucket cutoffNano).1)
    ∧ (∀ e ∈ bucket.drop n, e ∈ (clearForwardingLog bucket cutoffNano).1)

/-- The bucket name an output line reports on; `none` for the lines that name
no bucket. -/
def Line.about : Line → Option GoString
  | .bucketAlreadyEmpty n => some n
  | .deleteFailed n _ => some n
  | .deletedBucket n => some n
  | .bucketMissing n => some n
  | .deletedEvents _ n _ => some n
  | .notSupportedWouldDelete n => some n
  | .notSupported n => some n
  | _ => none

/-- The lines `clearOldEntries` prints for one requested name: one outcome
line about the name, followed, for an existing `closed-chan-bucket` or
`historical-chan-bucket`, by the hint to run without the flag. -/
def IsOutcomeBlock (db : Store) (name : GoString) (block : List Line) : Prop :=
  ∃ l : Line, l.about = some name ∧
    ((block = [l] ∧ ¬ ((Tx.Bucket db name).isSome = true ∧
        (name = ascii "closed-chan-bucket" ∨ name = ascii "historical-chan-bucket")))
     ∨ (block = [l, Line.useWithoutFlag] ∧ (Tx.Bucket db name).isSome = true ∧
        (name = ascii "closed-chan-bucket" ∨ name = ascii "historical-chan-bucket")))

/-! ## Lemmas on the key codec -/

theorem or_shift_eq_add (x y i : Nat) (h : x < 2 ^ i) : x ||| y <<< i = y * 2 ^ i + x := by
  rw [Nat.shiftLeft_eq, Nat.or_comm, Nat.mul_comm y, ← Nat.mul_add_lt_is_or h]

theorem uint64_bytes_eq (b0 b1 b2 b3 b4 b5 b6 b7 : Byte) :
    (b7.val ||| b6.val <<< 8 ||| b5.val <<< 16 ||| b4.val <<< 24 |||
      b3.val <<< 32 ||| b2.val <<< 40 ||| b1.val <<< 48 ||| b0.val <<< 56) =
    (((((((0 * 256 + b0.val) * 256 + b1.val) * 256 + b2.val) * 256 + b3.val) * 256
      + b4.val) * 256 + b5.val) * 256 + b6.val) * 256 + b7.val := by
  have h0 := b0.isLt
  have h1 := b1.isLt
  have h2 := b2.isLt
  have h3 := b3.isLt
  have h4 := b4.isLt
  have h5 := b5.isLt
  have h6 := b6.isLt
  have h7 := b7.isLt
  rw [or_shift_eq_add b7.val b6.val 8 (by omega)]
  rw [or_shift_eq_add _ b5.val 16
    (show b6.val * 2 ^ 8 + b7.val < 2 ^ 16 by norm_num; omega)]
  rw [or_shift_eq_add _ b4.val 24
    (show b5.val * 2 ^ 16 + (b6.val * 2 ^ 8 + b7.val) < 2 ^ 24 by norm_num; omega)]
  rw [or_shift_eq_add _ b3.val 32
    (show b4.val * 2 ^ 24 + (b5.val * 2 ^ 16 + (b6.val * 2 ^ 8 + b7.val)) < 2 ^ 32 by
      norm_num; omega)]
  rw [or_shift_eq_add _ b2.val 40
    (show b3.val * 2 ^ 32 + (b4.val * 2 ^ 24 + (b5.val * 2 ^ 16 + (b6.val * 2 ^ 8 + b7.val)))
      < 2 ^ 40 by norm_num; omega)]
  rw [or_shift_eq_add _ b1.val 48
    (show b2.val * 2 ^ 40 + (b3.val * 2 ^ 32 + (b4.val * 2 ^ 24 + (b5.val * 2 ^ 16
      + (b6.val * 2 ^ 8 + b7.val)))) < 2 ^ 48 by norm_num; omega)]
  rw [or_shift_eq_add _ b0.val 56
    (show b1.val * 2 ^ 48 + (b2.val * 2 ^ 40 + (b3.val * 2 ^ 32 + (b4.val * 2 ^ 24
      + (b5.val * 2 ^ 16 + (b6.val * 2 ^ 8 + b7.val))))) < 2 ^ 56 by norm_num; omega)]
  norm_num
  omega

/-- On an 8-byte key the shift-and-or read of `binary.BigEndian.Uint64` is the
big-endian base-256 value of the key. -/
theorem uint64_eq_bigEndianValue (k : List Byte) (h : k.length = 8) :
    BigEndian.Uint64 k = some (bigEndianValue k) := by
  match k, h with
  | [b0, b1, b2, b3, b4, b5, b6, b7], _ =>
    simp only [BigEndian.Uint64, bigEndianValue, List.foldl]
    rw [uint64_bytes_eq]

/-! ## Lemmas on `clearForwardingLog` -/

/-- The callback of the collecting pass adds the key exactly when it is expired. -/
theorem collect_step (c : Int) (keys : List (List Byte)) (k : List Byte) :
    (if k.length = 8 then
        match BigEndian.Uint64 k with
        | some u => if int64 u < c then keys ++ [k] else keys
        | none => keys
      else keys) = if expired c k then keys ++ [k] else keys := by
  by_cases h : k.length = 8
  · simp only [h, if_true, uint64_eq_bigEndianValue k h, expired, keyTimestamp, true_and]
  · simp [h, expired]

/-- The keys collected by the first pass, in cursor order. -/
theorem collect_eq (c : Int) (bucket : Bucket) (init : List (List Byte)) :
    bucket.ForEach (fun keysToDelete k _ =>
      if k.length = 8 then
        match BigEndian.Uint64 k with
        | some u => if int64 u < c then keysToDelete ++ [k] else keysToDelete
        | none => keysToDelete
      else keysToDelete) init
    = init ++ (bucket.filter (fun e => decide (expired c e.1))).map Prod.fst := by
  unfold Bucket.ForEach
  induction bucket generalizing init with
  | nil => simp
  | cons e rest ih =>
    simp only [List.foldl_cons]
    rw [collect_step, ih]
    by_cases h : expired c e.1
    · simp [h, List.filter_cons]
    · simp [h, List.filter_cons]

/-- The deleting pass removes every entry whose key was collected and counts
one per collected key. -/
theorem delete_loop_eq (keys : List (List Byte)) (b : Bucket) (n : Nat) :
    keys.foldl (fun st key => (Bucket.Delete st.1 key, st.2 + 1)) (b, n)
    = (b.filter (fun e => decide (e.1 ∉ keys)), n + keys.length) := by
  induction keys generalizing b n with
  | nil => simp
  | cons k ks ih =>
    simp only [List.foldl_cons]
    rw [ih]
    refine Prod.ext ?_ ?_
    · simp only [Bucket.Delete, List.filter_filter]
      apply List.filter_congr
      intro e _
      by_cases h1 : e.1 = k <;> simp [h1]
    · simp only [List.length_cons]
      omega

/-- Both results of `clearForwardingLog` in closed form. -/
theorem clearForwardingLog_eq (bucket : Bucket) (c : Int) :
    clearForwardingLog bucket c
    = (bucket.filter (fun e => decide (¬ expired c e.1)),
       (bucket.filter (fun e => decide (expired c e.1))).length) := by
  unfold clearForwardingLog
  simp only []
  rw [collect_eq, delete_loop_eq]
  refine Prod.ext ?_ ?_
  · simp only [List.nil_append]
    apply List.filter_congr
    intro e he
    by_cases h : expired c e.1
    · have : e.1 ∈ (bucket.filter (fun e => decide (expired c e.1))).map Prod.fst :=
        List.mem_map.2 ⟨e, List.mem_filter.2 ⟨he, by simpa using h⟩, rfl⟩
      simp [h, this]
    · have : e.1 ∉ (bucket.filter (fun e => decide (expired c e.1))).map Prod.fst := by
        intro hm
        obtain ⟨e2, he2, heq⟩ := List.mem_map.1 hm
        have := (List.mem_filter.1 he2).2
        rw [heq] at this
        exact h (by simpa using this)
      simp [h, this]
  · simp

theorem length_filter_split (bucket : Bucket) (c : Int) :
    (bucket.filter (fun e => decide (expired c e.1))).length
      + (bucket.filter (fun e => decide (¬ expired c e.1))).length = bucket.length := by
  induction bucket with
  | nil => rfl
  | cons e rest ih =>
    by_cases h : expired c e.1
    · simp only [List.filter_cons, h, decide_True, decide_False, not_true_eq_false, if_true,
        List.length_cons]
      simp only [Bool.false_eq_true, if_false]
      omega
    · simp only [List.filter_cons, h, decide_True, decide_False, not_false_eq_true, if_true,
        List.length_cons]
      simp only [Bool.false_eq_true, if_false]
      omega

theorem not_expired_iff (c : Int) (k : List Byte) :
    ¬ expired c k ↔ (k.length ≠ 8 ∨ c ≤ keyTimestamp k) := by
  unfold expired
  constructor
  · intro h
    by_cases h8 : k.length = 8
    · right
      by_contra hlt
      exact h ⟨h8, by omega⟩
    · left; exact h8
  · rintro (h | h) ⟨h8, hlt⟩
    · exact h h8
    · omega

/-! ## The claims on `clearForwardingLog` -/

/-- C1: after `clearForwardingLog(bucket, cutoff)` the bucket holds exactly the
entries of the original bucket, with their values and in their order, whose key
is not 8 bytes long or whose key read as a big-endian unsigned 64-bit value and
reinterpreted as `int64` is at least the cutoff; no entry with an 8-byte key
decoding strictly below the cutoff is left. -/
theorem clearForwardingLog_retains (bucket : Bucket) (cutoffNano : Int) :
    (clearForwardingLog bucket cutoffNano).1
        = bucket.filter (fun e => decide (e.1.length ≠ 8 ∨ cutoffNano ≤ keyTimestamp e.1))
    ∧ (∀ k v, (k, v) ∈ (clearForwardingLog bucket cutoffNano).1 ↔
        ((k, v) ∈ bucket ∧ (k.length ≠ 8 ∨ cutoffNano ≤ keyTimestamp k)))
    ∧ (∀ e ∈ (clearForwardingLog bucket cutoffNano).1,
        ¬ (e.1.length = 8 ∧ keyTimestamp e.1 < cutoffNano)) := by
  have h1 : (clearForwardingLog bucket cutoffNano).1
      = bucket.filter (fun e => decide (e.1.length ≠ 8 ∨ cutoffNano ≤ keyTimestamp e.1)) := by
    rw [clearForwardingLog_eq]
    apply List.filter_congr
    intro e _
    exact decide_eq_decide.2 (not_expired_iff cutoffNano e.1)
  refine ⟨h1, ?_, ?_⟩
  · intro k v
    rw [h1, List.mem_filter]
    simp
  · intro e he
    rw [h1, List.mem_filter] at he
    have := he.2
    simp only [decide_eq_true_eq] at this
    exact (not_expired_iff cutoffNano e.1).2 this

/-- C1 on the bucket with the keys for 100, 200 and 300 and a 4-byte key, at
cutoff 250: the 4-byte key and the key for 300 are left, with their values. -/
theorem clearForwardingLog_retains_witness :
    (clearForwardingLog
      [([0, 0, 0, 0], [9]), ([0, 0, 0, 0, 0, 0, 0, 100], [1]),
       ([0, 0, 0, 0, 0, 0, 0, 200], [2]), ([0, 0, 0, 0, 0, 0, 1, 44], [3])] 250).1
      = [([0, 0, 0, 0], [9]), ([0, 0, 0, 0, 0, 0, 1, 44], [3])] :=
  (clearForwardingLog_retains _ 250).1.trans (by decide)

/-- C2: the count `clearForwardingLog(bucket, cutoff)` returns is the number of
entries removed (the size before minus the size after), and it is the number
of entries of the original bucket with an 8-byte key whose timestamp is
strictly below the cutoff. -/
theorem clearForwardingLog_count (bucket : Bucket) (cutoffNano : Int) :
    (clearForwardingLog bucket cutoffNano).2
        = bucket.length - (clearForwardingLog bucket cutoffNano).1.length
    ∧ (clearForwardingLog bucket cutoffNano).1.length ≤ bucket.length
    ∧ (clearForwardingLog bucket cutoffNano).2
        = bucket.countP (fun e => decide (e.1.length = 8 ∧ keyTimestamp e.1 < cutoffNano)) := by
  have hs := length_filter_split bucket cutoffNano
  rw [clearForwardingLog_eq]
  simp only []
  refine ⟨by omega, by omega, ?_⟩
  rw [List.countP_eq_length_filter]
  rfl

/-- C2 on the keys for 100, 200 and 300 at cutoff 250: the count is 2. -/
theorem clearForwardingLog_count_witness :
    (clearForwardingLog
      [([0, 0, 0, 0, 0, 0, 0, 100], [1]), ([0, 0, 0, 0, 0, 0, 0, 200], [2]),
       ([0, 0, 0, 0, 0, 0, 1, 44], [3])] 250).2 = 2 :=
  (clearForwardingLog_count _ 250).2.2.trans (by decide)

/-! ## Lemmas on `int64` and on `strconv.Atoi` -/

theorem int64_of_inRange (x : Int) (h : InInt64 x) : int64 x = x := by
  unfold InInt64 at h
  unfold int64
  omega

theorem int64_eq_add_mul (x : Int) : ∃ k : Int, int64 x = x + 2 ^ 64 * k := by
  refine ⟨-((x + 2 ^ 63) / 2 ^ 64), ?_⟩
  unfold int64
  have := Int.emod_add_ediv (x + 2 ^ 63) (2 ^ 64)
  linarith

theorem int64_mul_left (a b : Int) : int64 (int64 a * b) = int64 (a * b) := by
  obtain ⟨k, hk⟩ := int64_eq_add_mul a
  rw [hk]
  unfold int64
  have : (a + 2 ^ 64 * k) * b + 2 ^ 63 = (a * b + 2 ^ 63) + 2 ^ 64 * (k * b) := by ring
  rw [this, Int.add_mul_emod_self_left]

theorem decimalFrom_ge (ds : List Byte) (n : Nat) : n ≤ decimalFrom n ds := by
  induction ds generalizing n with
  | nil => exact Nat.le_refl _
  | cons c cs ih =>
    have := ih (n * 10 + (c.val - 48))
    simp only [decimalFrom, List.foldl_cons] at this ⊢
    omega

theorem parseUintLoop_ok_iff (cs : List Byte) (n v : Nat) (hn : n < 2 ^ 64) :
    parseUintLoop cs n = .ok v ↔
      ((∀ c ∈ cs, 48 ≤ c.val ∧ c.val ≤ 57) ∧ v = decimalFrom n cs ∧ v < 2 ^ 64) := by
  induction cs generalizing n with
  | nil =>
    simp only [parseUintLoop, decimalFrom, List.foldl_nil, List.not_mem_nil, false_implies,
      implies_true, true_and, Except.ok.injEq]
    constructor
    · intro h; subst h; exact ⟨rfl, hn⟩
    · intro h; exact h.1.symm
  | cons c cs ih =>
    have hmono := decimalFrom_ge cs (n * 10 + (c.val - 48))
    have hfold : decimalFrom n (c :: cs) = decimalFrom (n * 10 + (c.val - 48)) cs := rfl
    rw [hfold]
    unfold parseUintLoop
    by_cases hd : 48 ≤ c.val ∧ c.val ≤ 57
    · simp only [hd, and_self, if_true]
      by_cases hcut : n ≥ (2 ^ 64 - 1) / 10 + 1
      · simp only [hcut, if_true]
        constructor
        · intro h; cases h
        · rintro ⟨_, h2, h3⟩
          exfalso
          norm_num at hcut
          omega
      · simp only [hcut, if_false]
        norm_num at hcut
        have h10 : n * 10 % 2 ^ 64 = n * 10 := Nat.mod_eq_of_lt (by omega)
        rw [h10]
        by_cases hov : n * 10 + (c.val - 48) < 2 ^ 64
        · have h1 : (n * 10 + (c.val - 48)) % 2 ^ 64 = n * 10 + (c.val - 48) :=
            Nat.mod_eq_of_lt hov
          rw [h1]
          have hno : ¬ (n * 10 + (c.val - 48) < n * 10 ∨ n * 10 + (c.val - 48) > 2 ^ 64 - 1) := by
            omega
          simp only [hno, if_false]
          rw [ih _ hov]
          constructor
          · rintro ⟨h1, h2⟩
            refine ⟨?_, h2⟩
            intro x hx
            rcases List.mem_cons.1 hx with h | h
            · subst h; exact hd
            · exact h1 x h
          · rintro ⟨h1, h2⟩
            exact ⟨fun x hx => h1 x (List.mem_cons_of_mem _ hx), h2⟩
        · have hwrap : (n * 10 + (c.val - 48)) % 2 ^ 64 < n * 10 := by omega
          simp only [hwrap, true_or, if_true]
          constructor
          · intro h; cases h
          · rintro ⟨_, h2, h3⟩
            omega
    · simp only [hd, if_false]
      constructor
      · intro h; cases h
      · rintro ⟨h1, _⟩
        exact absurd (h1 c (List.mem_cons_self _ _)) hd

theorem int64_natCast (un : Nat) (h : un < 2 ^ 63) : int64 (un : Int) = (un : Int) := by
  unfold int64
  omega

theorem int64_neg_int64 (un : Nat) (h : un ≤ 2 ^ 63) :
    int64 (-(int64 (un : Int))) = -(un : Int) := by
  unfold int64
  omega

theorem parseInt_cons (c : Byte) (rest : List Byte) :
    ParseInt (c :: rest) =
      match ParseUint (if c.val = 43 ∨ c.val = 45 then rest else c :: rest) with
      | .error e => .error e
      | .ok un =>
        if decide (c.val = 45) = false ∧ un ≥ 2 ^ 63 then .error .ErrRange
        else if decide (c.val = 45) = true ∧ un > 2 ^ 63 then .error .ErrRange
        else if decide (c.val = 45) then .ok (int64 (-(int64 un))) else .ok (int64 un) := rfl

theorem parseInt_minus (c : Byte) (rest : List Byte) (h45 : c.val = 45) :
    ParseInt (c :: rest) =
      match ParseUint rest with
      | .error e => .error e
      | .ok un => if un > 2 ^ 63 then .error .ErrRange else .ok (-(un : Int)) := by
  have hb : (if c.val = 43 ∨ c.val = 45 then rest else c :: rest) = rest := by simp [h45]
  have hneg : decide (c.val = 45) = true := by simp [h45]
  rw [parseInt_cons, hb, hneg]
  cases ParseUint rest with
  | error e => rfl
  | ok un =>
    by_cases h : un > 2 ^ 63
    · simp only [h, if_true, Bool.true_eq_false, false_and, if_false, true_and]
    · simp only [h, if_false, Bool.true_eq_false, false_and, true_and, if_true]
      rw [int64_neg_int64 un (by omega)]

theorem parseInt_plus (c : Byte) (rest : List Byte) (h43 : c.val = 43) :
    ParseInt (c :: rest) =
      match ParseUint rest with
      | .error e => .error e
      | .ok un => if un ≥ 2 ^ 63 then .error .ErrRange else .ok (un : Int) := by
  have hb : (if c.val = 43 ∨ c.val = 45 then rest else c :: rest) = rest := by simp [h43]
  have hneg : decide (c.val = 45) = false := by simp [h43]
  rw [parseInt_cons, hb, hneg]
  cases ParseUint rest with
  | error e => rfl
  | ok un =>
    by_cases h : un ≥ 2 ^ 63
    · simp only [h, and_self, if_true]
    · simp only [h, and_false, if_false, Bool.false_eq_true, false_and]
      rw [int64_natCast un (by omega)]

theorem parseInt_unsigned (c : Byte) (rest : List Byte) (h43 : c.val ≠ 43) (h45 : c.val ≠ 45) :
    ParseInt (c :: rest) =
      match ParseUint (c :: rest) with
      | .error e => .error e
      | .ok un => if un ≥ 2 ^ 63 then .error .ErrRange else .ok (un : Int) := by
  have hb : (if c.val = 43 ∨ c.val = 45 then rest else c :: rest) = c :: rest := by
    simp [h43, h45]
  have hneg : decide (c.val = 45) = false := by simp [h45]
  rw [parseInt_cons, hb, hneg]
  cases ParseUint (c :: rest) with
  | error e => rfl
  | ok un =>
    by_cases h : un ≥ 2 ^ 63
    · simp only [h, and_self, if_true]
    · simp only [h, and_false, if_false, Bool.false_eq_true, false_and]
      rw [int64_natCast un (by omega)]

theorem parseUint_ok_iff (s : GoString) (v : Nat) :
    ParseUint s = .ok v ↔ (IsDigits s ∧ v = decimalValue s ∧ v < 2 ^ 64) := by
  unfold ParseUint IsDigits decimalValue
  by_cases hs : s = []
  · simp [hs]
  · simp only [hs, if_false, ne_eq, not_false_eq_true, true_and]
    rw [parseUintLoop_ok_iff s 0 v (by norm_num)]

theorem isDigits_head {c : Byte} {ds : List Byte} (h : IsDigits (c :: ds)) :
    48 ≤ c.val ∧ c.val ≤ 57 := h.2 c (List.mem_cons_self _ _)

/-- `ParseInt` returns `n` exactly on the decimal numerals of `n`, for the `n`
that an `int64` holds. -/
theorem parseInt_ok_iff (s : GoString) (n : Int) :
    ParseInt s = .ok n ↔ (Denotes s n ∧ InInt64 n) := by
  cases s with
  | nil =>
    constructor
    · intro h; cases h
    · rintro ⟨h, _⟩
      cases h with
      | unsigned ds hd => exact absurd rfl hd.1
  | cons c rest =>
    by_cases h45 : c.val = 45
    · rw [parseInt_minus c rest h45]
      have hc : c = (45 : Byte) := Fin.ext h45
      constructor
      · intro h
        cases hu : ParseUint rest with
        | error e => rw [hu] at h; cases h
        | ok un =>
          rw [hu] at h
          simp only [] at h
          obtain ⟨hd, hv, _⟩ := (parseUint_ok_iff rest un).1 hu
          by_cases hr : un > 2 ^ 63
          · rw [if_pos hr] at h; cases h
          · rw [if_neg hr] at h
            have hn : -(un : Int) = n := Except.ok.inj h
            subst hn
            refine ⟨?_, ?_⟩
            · rw [hv, hc]; exact Denotes.minus rest hd
            · unfold InInt64; omega
      · rintro ⟨hden, hin⟩
        have key : ∀ ds : List Byte, IsDigits ds → rest = ds → n = -(decimalValue ds : Int) →
            (match ParseUint rest with
              | .error e => .error e
              | .ok un => if un > 2 ^ 63 then Except.error NumError.ErrRange
                  else Except.ok (-(un : Int))) = Except.ok n := by
          intro ds hd hrest hn
          subst hrest
          generalize hm : decimalValue rest = m at hn
          subst hn
          have hm2 : m < 2 ^ 64 := by unfold InInt64 at hin; omega
          rw [(parseUint_ok_iff rest m).2 ⟨hd, hm.symm, hm2⟩]
          have hr : ¬ m > 2 ^ 63 := by unfold InInt64 at hin; omega
          simp only []
          rw [if_neg hr]
        cases hden with
        | unsigned ds hd => have := isDigits_head hd; omega
        | plus ds hd => exact absurd h45 (by decide)
        | minus ds hd => exact key rest hd rfl rfl
    · by_cases h43 : c.val = 43
      · rw [parseInt_plus c rest h43]
        have hc : c = (43 : Byte) := Fin.ext h43
        constructor
        · intro h
          cases hu : ParseUint rest with
          | error e => rw [hu] at h; cases h
          | ok un =>
            rw [hu] at h
            simp only [] at h
            obtain ⟨hd, hv, _⟩ := (parseUint_ok_iff rest un).1 hu
            by_cases hr : un ≥ 2 ^ 63
            · rw [if_pos hr] at h; cases h
            · rw [if_neg hr] at h
              have hn : (un : Int) = n := Except.ok.inj h
              subst hn
              refine ⟨?_, ?_⟩
              · rw [hv, hc]; exact Denotes.plus rest hd
              · unfold InInt64; omega
        · rintro ⟨hden, hin⟩
          have key : ∀ ds : List Byte, IsDigits ds → rest = ds → n = (decimalValue ds : Int) →
              (match ParseUint rest with
                | .error e => .error e
                | .ok un => if un ≥ 2 ^ 63 then Except.error NumError.ErrRange
                    else Except.ok (un : Int)) = Except.ok n := by
            intro ds hd hrest hn
            subst hrest
            generalize hm : decimalValue rest = m at hn
            subst hn
            have hm2 : m < 2 ^ 64 := by unfold InInt64 at hin; omega
            rw [(parseUint_ok_iff rest m).2 ⟨hd, hm.symm, hm2⟩]
            have hr : ¬ m ≥ 2 ^ 63 := by unfold InInt64 at hin; omega
            simp only []
            rw [if_neg hr]
          cases hden with
          | unsigned ds hd => have := isDigits_head hd; omega
          | minus ds hd => exact absurd h45 (by decide)
          | plus ds hd => exact key rest hd rfl rfl
      · rw [parseInt_unsigned c rest h43 h45]
        constructor
        · intro h
          cases hu : ParseUint (c :: rest) with
          | error e => rw [hu] at h; cases h
          | ok un =>
            rw [hu] at h
            simp only [] at h
            obtain ⟨hd, hv, _⟩ := (parseUint_ok_iff (c :: rest) un).1 hu
            by_cases hr : un ≥ 2 ^ 63
            · rw [if_pos hr] at h; cases h
            · rw [if_neg hr] at h
              have hn : (un : Int) = n := Except.ok.inj h
              subst hn
              refine ⟨?_, ?_⟩
              · rw [hv]; exact Denotes.unsigned (c :: rest) hd
              · unfold InInt64; omega
        · rintro ⟨hden, hin⟩
          have key : ∀ ds : List Byte, IsDigits ds → c :: rest = ds →
              n = (decimalValue ds : Int) →
              (match ParseUint (c :: rest) with
                | .error e => .error e
                | .ok un => if un ≥ 2 ^ 63 then Except.error NumError.ErrRange
                    else Except.ok (un : Int)) = Except.ok n := by
            intro ds hd hrest hn
            subst hrest
            generalize hm : decimalValue (c :: rest) = m at hn
            subst hn
            have hm2 : m < 2 ^ 64 := by unfold InInt64 at hin; omega
            rw [(parseUint_ok_iff (c :: rest) m).2 ⟨hd, hm.symm, hm2⟩]
            have hr : ¬ m ≥ 2 ^ 63 := by unfold InInt64 at hin; omega
            simp only []
            rw [if_neg hr]
          cases hden with
          | unsigned ds hd => exact key _ hd rfl rfl
          | plus ds hd => exact absurd rfl h43
          | minus ds hd => exact absurd rfl h45

/-- `Atoi` fails exactly on the strings that are not a valid integer. -/
theorem atoi_error_iff (s : GoString) : (∃ e, Atoi s = .error e) ↔ ¬ ValidInteger s := by
  unfold Atoi ValidInteger
  constructor
  · rintro ⟨e, he⟩ ⟨n, hn⟩
    rw [(parseInt_ok_iff s n).2 hn] at he
    cases he
  · intro h
    cases hp : ParseInt s with
    | error e => exact ⟨e, rfl⟩
    | ok n => exact absurd ⟨n, (parseInt_ok_iff s n).1 hp⟩ h

/-! ## Lemmas on `parseDuration` -/

theorem ascii_d : ascii "d" = [(100 : Byte)] := by decide

theorem ascii_w : ascii "w" = [(119 : Byte)] := by decide

theorem ascii_m : ascii "m" = [(109 : Byte)] := by decide

theorem ascii_y : ascii "y" = [(121 : Byte)] := by decide

/-- The four units, and no other string, have a length. -/
theorem unitNanos_isSome_iff (unit : GoString) :
    (∃ L, unitNanos unit = some L) ↔
      unit ∈ [ascii "d", ascii "w", ascii "m", ascii "y"] := by
  unfold unitNanos
  simp only [List.mem_cons, List.mem_singleton, List.not_mem_nil, or_false]
  by_cases hd : unit = ascii "d"
  · rw [if_pos hd]; exact ⟨fun _ => Or.inl hd, fun _ => ⟨_, rfl⟩⟩
  · rw [if_neg hd]
    by_cases hw : unit = ascii "w"
    · rw [if_pos hw]; exact ⟨fun _ => Or.inr (Or.inl hw), fun _ => ⟨_, rfl⟩⟩
    · rw [if_neg hw]
      by_cases hm : unit = ascii "m"
      · rw [if_pos hm]; exact ⟨fun _ => Or.inr (Or.inr (Or.inl hm)), fun _ => ⟨_, rfl⟩⟩
      · rw [if_neg hm]
        by_cases hy : unit = ascii "y"
        · rw [if_pos hy]; exact ⟨fun _ => Or.inr (Or.inr (Or.inr hy)), fun _ => ⟨_, rfl⟩⟩
        · rw [if_neg hy]
          constructor
          · rintro ⟨L, hL⟩; cases hL
          · rintro (h | h | h | h) <;> contradiction

theorem unit_length_one (unit : GoString)
    (h : unit ∈ [ascii "d", ascii "w", ascii "m", ascii "y"]) : unit.length = 1 := by
  simp only [List.mem_cons, List.mem_singleton, List.not_mem_nil, or_false] at h
  rcases h with h | h | h | h <;> subst h <;> rfl

theorem int64_mul2 (n a b : Int) : int64 (int64 (int64 n * a) * b) = int64 (n * (a * b)) := by
  rw [int64_mul_left (int64 n * a) b]
  have h : int64 n * a * b = int64 n * (a * b) := by ring
  rw [h, int64_mul_left]

theorem int64_mul3 (n a b c : Int) :
    int64 (int64 (int64 (int64 n * a) * b) * c) = int64 (n * (a * b * c)) := by
  rw [int64_mul_left (int64 (int64 n * a) * b) c]
  have h1 : int64 (int64 n * a) * b * c = int64 (int64 n * a) * (b * c) := by ring
  rw [h1, int64_mul_left (int64 n * a) (b * c)]
  have h2 : int64 n * a * (b * c) = int64 n * (a * b * c) := by ring
  rw [h2, int64_mul_left]

/-- The value `parseDuration` computes once the two parts of the string are
known: the `int64` reduction of the exact product. -/
theorem parseDuration_split (s : GoString) (hlen : 2 ≤ s.length) (n L : Int)
    (hn : Atoi (s.take (s.length - 1)) = .ok n)
    (hu : unitNanos (s.drop (s.length - 1)) = some L) :
    parseDuration s = .ok (int64 (n * L)) := by
  unfold parseDuration
  have hl : ¬ s.length < 2 := by omega
  simp only [hl, if_false, hn]
  unfold unitNanos at hu
  by_cases hd : s.drop (s.length - 1) = ascii "d"
  · rw [if_pos hd] at hu ⊢
    rw [← Option.some.inj hu, int64_mul2]
    norm_num [Hour]
  · rw [if_neg hd] at hu ⊢
    by_cases hw : s.drop (s.length - 1) = ascii "w"
    · rw [if_pos hw] at hu ⊢
      rw [← Option.some.inj hu, int64_mul3]
      norm_num [Hour]
    · rw [if_neg hw] at hu ⊢
      by_cases hm : s.drop (s.length - 1) = ascii "m"
      · rw [if_pos hm] at hu ⊢
        rw [← Option.some.inj hu, int64_mul3]
        norm_num [Hour]
      · rw [if_neg hm] at hu ⊢
        by_cases hy : s.drop (s.length - 1) = ascii "y"
        · rw [if_pos hy] at hu ⊢
          rw [← Option.some.inj hu, int64_mul3]
          norm_num [Hour]
        · rw [if_neg hy] at hu
          cases hu

theorem denotes_ne_nil {t : GoString} {n : Int} (h : Denotes t n) : t ≠ [] := by
  cases h with
  | unsigned ds hd => exact hd.1
  | plus ds hd => exact List.cons_ne_nil _ _
  | minus ds hd => exact List.cons_ne_nil _ _

/-- The string `<integer><unit>`: its two parts are found again by the slicing
of `parseDuration`. -/
theorem take_drop_append_unit (numStr unit : GoString) (hu : unit.length = 1) :
    (numStr ++ unit).take ((numStr ++ unit).length - 1) = numStr ∧
    (numStr ++ unit).drop ((numStr ++ unit).length - 1) = unit := by
  have hl : (numStr ++ unit).length - 1 = numStr.length := by
    rw [List.length_append, hu]; omega
  rw [hl]
  exact ⟨List.take_left' rfl, List.drop_left' rfl⟩

/-- On `<integer><unit>` with an integer that `Atoi` accepts, `parseDuration`
returns the `int64` reduction of integer times unit length. -/
theorem parseDuration_int64 (numStr unit : GoString) (n L : Int)
    (hn : Denotes numStr n) (hr : InInt64 n) (hu : unitNanos unit = some L) :
    parseDuration (numStr ++ unit) = .ok (int64 (n * L)) := by
  have hmem := (unitNanos_isSome_iff unit).1 ⟨L, hu⟩
  have h1 := unit_length_one unit hmem
  obtain ⟨ht, hd⟩ := take_drop_append_unit numStr unit h1
  have hne := denotes_ne_nil hn
  have hlen : 2 ≤ (numStr ++ unit).length := by
    rw [List.length_append, h1]
    have : 0 < numStr.length := List.length_pos.2 hne
    omega
  apply parseDuration_split _ hlen
  · rw [ht]; exact (parseInt_ok_iff numStr n).2 ⟨hn, hr⟩
  · rw [hd]; exact hu

theorem parseDuration_short (s : GoString) (h : s.length < 2) :
    parseDuration s = .error .invalidDuration := by
  unfold parseDuration
  rw [if_pos h]

theorem parseDuration_atoi_error (s : GoString) (h : ¬ s.length < 2) (e : NumError)
    (he : Atoi (s.take (s.length - 1)) = .error e) :
    parseDuration s = .error (.atoi e) := by
  unfold parseDuration
  rw [if_neg h]
  simp only [he]

theorem parseDuration_bad_unit (s : GoString) (h : ¬ s.length < 2) (n : Int)
    (hn : Atoi (s.take (s.length - 1)) = .ok n)
    (hu : s.drop (s.length - 1) ∉ [ascii "d", ascii "w", ascii "m", ascii "y"]) :
    parseDuration s = .error (.invalidUnit (s.drop (s.length - 1))) := by
  unfold parseDuration
  rw [if_neg h]
  simp only [hn]
  simp only [List.mem_cons, List.mem_singleton, List.not_mem_nil, or_false, not_or] at hu
  rw [if_neg hu.1, if_neg hu.2.1, if_neg hu.2.2.1, if_neg hu.2.2.2]

theorem except_ok_iff_not_error {ε α : Type} (x : Except ε α) :
    (∃ a, x = .ok a) ↔ ¬ ∃ e, x = .error e := by
  cases x with
  | error e =>
    constructor
    · rintro ⟨_, h⟩; cases h
    · intro h; exact absurd ⟨e, rfl⟩ h
  | ok a =>
    constructor
    · rintro _ ⟨_, h⟩; cases h
    · intro _; exact ⟨a, rfl⟩

/-- A check of `IsDigits` that evaluates. -/
theorem isDigits_of_all (ds : List Byte)
    (h : (!ds.isEmpty && ds.all (fun c => decide (48 ≤ c.val ∧ c.val ≤ 57))) = true) :
    IsDigits ds := by
  simp only [Bool.and_eq_true, Bool.not_eq_true', List.all_eq_true, decide_eq_true_eq] at h
  refine ⟨?_, h.2⟩
  intro hnil
  rw [hnil] at h
  simp at h

theorem parseDuration_fails_iff (s : GoString) :
    (∃ e, parseDuration s = .error e) ↔
      (s.length < 2 ∨ ¬ ValidInteger (s.take (s.length - 1)) ∨
        s.drop (s.length - 1) ∉ [ascii "d", ascii "w", ascii "m", ascii "y"]) := by
  by_cases hlen : s.length < 2
  · exact ⟨fun _ => Or.inl hlen, fun _ => ⟨_, parseDuration_short s hlen⟩⟩
  · cases ha : Atoi (s.take (s.length - 1)) with
    | error e =>
      have hv : ¬ ValidInteger (s.take (s.length - 1)) :=
        (atoi_error_iff _).1 ⟨e, ha⟩
      exact ⟨fun _ => Or.inr (Or.inl hv), fun _ => ⟨_, parseDuration_atoi_error s hlen e ha⟩⟩
    | ok n =>
      have hv : ValidInteger (s.take (s.length - 1)) := by
        by_contra hc
        obtain ⟨e, he⟩ := (atoi_error_iff _).2 hc
        rw [ha] at he
        cases he
      by_cases hu : s.drop (s.length - 1) ∈ [ascii "d", ascii "w", ascii "m", ascii "y"]
      · obtain ⟨L, hL⟩ := (unitNanos_isSome_iff _).2 hu
        have hok := parseDuration_split s (by omega) n L ha hL
        constructor
        · rintro ⟨e, he⟩
          rw [hok] at he
          cases he
        · rintro (h | h | h)
          · exact absurd h hlen
          · exact absurd hv h
          · exact absurd hu h
      · exact ⟨fun _ => Or.inr (Or.inr hu), fun _ => ⟨_, parseDuration_bad_unit s hlen n ha hu⟩⟩

/-! ## The claims on `parseDuration` -/

/-- C3, as the claim states it, fails: `106752d` is accepted, 106752 days are
9223372800000000000 ns, more than an `int64` holds, and the duration returned
is the negative -9223371273709551616. -/
theorem parseDuration_exact_counterexample :
    Denotes (ascii "106752") 106752
    ∧ unitNanos (ascii "d") = some 86400000000000
    ∧ parseDuration (ascii "106752" ++ ascii "d") = .ok (-9223371273709551616)
    ∧ (-9223371273709551616 : Int) ≠ 106752 * 86400000000000 :=
  ⟨Denotes.unsigned (ascii "106752") (isDigits_of_all _ (by decide)), by decide, by decide, by decide⟩

/-- C3 (amended): for every string `<integer><unit>` with a unit among d, w, m,
y and an integer that `strconv.Atoi` accepts, when integer times unit length
(24h, 7x24h, 30x24h, 365x24h in nanoseconds) lies in the `int64` range,
`parseDuration` accepts the string and returns exactly that product. -/
theorem parseDuration_exact (numStr unit : GoString) (n L : Int)
    (hn : Denotes numStr n) (hr : InInt64 n) (hu : unitNanos unit = some L)
    (hfit : InInt64 (n * L)) :
    parseDuration (numStr ++ unit) = .ok (n * L) := by
  rw [parseDuration_int64 numStr unit n L hn hr hu, int64_of_inRange _ hfit]

/-- C3 (amended) on `2w`: two weeks are 14 days of 24 hours. -/
theorem parseDuration_exact_witness :
    Denotes (ascii "2") 2 ∧ InInt64 2 ∧ unitNanos (ascii "w") = some (7 * (24 * Hour))
    ∧ InInt64 (2 * (7 * (24 * Hour)))
    ∧ parseDuration (ascii "2" ++ ascii "w") = .ok (2 * (7 * (24 * Hour))) :=
  ⟨Denotes.unsigned (ascii "2") (isDigits_of_all _ (by decide)), by decide, by decide, by decide,
    parseDuration_exact (ascii "2") (ascii "w") 2 (7 * (24 * Hour))
      (Denotes.unsigned (ascii "2") (isDigits_of_all _ (by decide))) (by decide) (by decide) (by decide)⟩

/-- The examples of the specification: `2w`, `1m` and `1y` give 14, 30 and
365 days of 24 hours; `abc`, `5` and `10x` are rejected. -/
theorem parseDuration_examples :
    parseDuration (ascii "2w") = .ok (14 * (24 * Hour))
    ∧ parseDuration (ascii "1m") = .ok (30 * (24 * Hour))
    ∧ parseDuration (ascii "1y") = .ok (365 * (24 * Hour))
    ∧ parseDuration (ascii "abc") = .error (.atoi .ErrSyntax)
    ∧ parseDuration (ascii "5") = .error .invalidDuration
    ∧ parseDuration (ascii "10x") = .error (.invalidUnit (ascii "x")) :=
  ⟨by decide, by decide, by decide, by decide, by decide, by decide⟩

/-- C4: `parseDuration(s)` returns an error if and only if `s` is shorter than
2 bytes, or `s` without its last byte is not a valid integer (a decimal
numeral, with an optional sign, of a value the 64-bit `int` holds), or the
last byte of `s` is not one of d, w, m, y; in every other case, and only
then, it returns a duration. -/
theorem parseDuration_error_iff (s : GoString) :
    ((∃ e, parseDuration s = .error e) ↔
      (s.length < 2 ∨ ¬ ValidInteger (s.take (s.length - 1)) ∨
        s.drop (s.length - 1) ∉ [ascii "d", ascii "w", ascii "m", ascii "y"]))
    ∧ ((∃ d, parseDuration s = .ok d) ↔
      ¬ (s.length < 2 ∨ ¬ ValidInteger (s.take (s.length - 1)) ∨
        s.drop (s.length - 1) ∉ [ascii "d", ascii "w", ascii "m", ascii "y"])) := by
  refine ⟨parseDuration_fails_iff s, ?_⟩
  rw [except_ok_iff_not_error, parseDuration_fails_iff]

/-! ## Lemmas on the store -/

theorem txBucket_nil (name : GoString) : Tx.Bucket [] name = none := rfl

theorem txBucket_cons (e : GoString × Bucket) (tx : Store) (name : GoString) :
    Tx.Bucket (e :: tx) name = if e.1 = name then some e.2 else Tx.Bucket tx name := by
  unfold Tx.Bucket
  by_cases h : e.1 = name
  · simp [List.find?_cons, h]
  · simp [List.find?_cons, h]

/-- No bucket of that name: no entry of the store carries the name. -/
theorem txBucket_eq_none_iff (tx : Store) (name : GoString) :
    Tx.Bucket tx name = none ↔ ∀ e ∈ tx, e.1 ≠ name := by
  induction tx with
  | nil => simp [txBucket_nil]
  | cons e rest ih =>
    rw [txBucket_cons]
    by_cases h : e.1 = name
    · simp [h]
    · simp [h, ih]

theorem filter_ne_of_absent (tx : Store) (name : GoString) (h : Tx.Bucket tx name = none) :
    tx.filter (fun e => decide (e.1 ≠ name)) = tx := by
  rw [List.filter_eq_self]
  intro e he
  simpa using (txBucket_eq_none_iff tx name).1 h e he

/-- Looking a name up after the buckets named in `names` were removed. -/
theorem txBucket_filter_notMem (tx : Store) (names : List GoString) (name : GoString) :
    Tx.Bucket (tx.filter (fun e => decide (e.1 ∉ names))) name
      = if name ∈ names then none else Tx.Bucket tx name := by
  induction tx with
  | nil => simp [txBucket_nil]
  | cons e rest ih =>
    by_cases hm : e.1 ∈ names
    · have hf : (e :: rest).filter (fun e => decide (e.1 ∉ names))
          = rest.filter (fun e => decide (e.1 ∉ names)) := by
        simp [List.filter_cons, hm]
      rw [hf, ih, txBucket_cons]
      by_cases hn : name ∈ names
      · simp [hn]
      · have : e.1 ≠ name := fun h => hn (h ▸ hm)
        simp [hn, this]
    · have hf : (e :: rest).filter (fun e => decide (e.1 ∉ names))
          = e :: rest.filter (fun e => decide (e.1 ∉ names)) := by
        simp [List.filter_cons, hm]
      rw [hf, txBucket_cons, txBucket_cons, ih]
      by_cases he : e.1 = name
      · have : name ∉ names := fun h => hm (he ▸ h)
        simp [he, this]
      · simp [he]

theorem txBucket_setBucket (tx : Store) (name : GoString) (b : Bucket) (n : GoString) :
    Tx.Bucket (Tx.setBucket tx name b) n
      = if n = name then (Tx.Bucket tx name).map (fun _ => b) else Tx.Bucket tx n := by
  induction tx with
  | nil => simp [Tx.setBucket, txBucket_nil]
  | cons e rest ih =>
    have hs : Tx.setBucket (e :: rest) name b
        = (if e.1 = name then (e.1, b) else e) :: Tx.setBucket rest name b := rfl
    rw [hs, txBucket_cons, ih]
    by_cases he : e.1 = name
    · by_cases hn : n = name
      · simp [he, hn, txBucket_cons]
      · have : ¬ name = n := fun h => hn h.symm
        simp [he, hn, txBucket_cons, this]
    · by_cases hn : n = name
      · simp [he, hn, txBucket_cons]
      · simp [he, hn, txBucket_cons]

/-! ## Lemmas on `clearBuckets` -/

/-- When the bucket exists, `tx.DeleteBucket` does not fail: the branch of
`clearBuckets` that reports a failed delete is never taken. -/
theorem deleteBucket_of_some (tx : Store) (name : GoString) (b : Bucket)
    (h : Tx.Bucket tx name = some b) :
    Tx.DeleteBucket tx name = .ok (tx.filter (fun e => decide (e.1 ≠ name))) := by
  unfold Tx.DeleteBucket
  rw [h]

theorem clearBucketsStep_absent (st : TxState) (name : GoString)
    (h : Tx.Bucket st.1 name = none) :
    clearBucketsStep st name = (st.1, st.2 ++ [Line.bucketAlreadyEmpty name]) := by
  unfold clearBucketsStep
  rw [h]

theorem clearBucketsStep_present (st : TxState) (name : GoString) (b : Bucket)
    (h : Tx.Bucket st.1 name = some b) :
    clearBucketsStep st name
      = (st.1.filter (fun e => decide (e.1 ≠ name)), st.2 ++ [Line.deletedBucket name]) := by
  unfold clearBucketsStep
  rw [h]
  simp only []
  rw [deleteBucket_of_some st.1 name b h]

theorem clearBucketsStep_store (st : TxState) (name : GoString) :
    (clearBucketsStep st name).1 = st.1.filter (fun e => decide (e.1 ≠ name)) := by
  cases h : Tx.Bucket st.1 name with
  | none => rw [clearBucketsStep_absent st name h, filter_ne_of_absent st.1 name h]
  | some b => rw [clearBucketsStep_present st name b h]

/-- The buckets left by the loop of `clearBuckets`. -/
theorem clearBuckets_fold_store (buckets : List GoString) (st : TxState) :
    (buckets.foldl clearBucketsStep st).1
      = st.1.filter (fun e => decide (e.1 ∉ buckets)) := by
  induction buckets generalizing st with
  | nil => simp
  | cons name rest ih =>
    rw [List.foldl_cons, ih, clearBucketsStep_store, List.filter_filter]
    apply List.filter_congr
    intro e _
    by_cases h1 : e.1 = name <;> simp [h1]

theorem clearBuckets_store (db : Store) (buckets : List GoString) (commitOk : Bool) :
    (clearBuckets db buckets commitOk).1
      = if commitOk then db.filter (fun e => decide (e.1 ∉ buckets)) else db := by
  unfold clearBuckets DB.Update
  cases commitOk with
  | true =>
    simp only [if_true]
    exact clearBuckets_fold_store buckets (db, [])
  | false => rfl

theorem clearBuckets_out (db : Store) (buckets : List GoString) (commitOk : Bool) :
    (clearBuckets db buckets commitOk).2 = (buckets.foldl clearBucketsStep (db, [])).2 := by
  unfold clearBuckets DB.Update
  cases commitOk <;> rfl

/-! ## Lemmas on `clearOldEntries` -/

/-- Running `clearForwardingLog` again with the same cutoff deletes nothing. -/
theorem clearForwardingLog_again (bucket : Bucket) (c : Int) :
    clearForwardingLog (clearForwardingLog bucket c).1 c = ((clearForwardingLog bucket c).1, 0) := by
  rw [clearForwardingLog_eq bucket c]
  simp only []
  rw [clearForwardingLog_eq]
  refine Prod.ext ?_ ?_
  · simp only [List.filter_filter]
    apply List.filter_congr
    intro e _
    simp
  · simp only [List.filter_filter, List.length_eq_zero, List.filter_eq_nil_iff]
    intro e _
    simp

theorem setBucket_setBucket (tx : Store) (name : GoString) (b1 b2 : Bucket) :
    Tx.setBucket (Tx.setBucket tx name b1) name b2 = Tx.setBucket tx name b2 := by
  unfold Tx.setBucket
  rw [List.map_map]
  apply List.map_congr_left
  intro e _
  by_cases h : e.1 = name
  · simp [h]
  · simp [h]

theorem setBucket_of_absent (tx : Store) (name : GoString) (b : Bucket)
    (h : Tx.Bucket tx name = none) : Tx.setBucket tx name b = tx := by
  unfold Tx.setBucket
  have hne := (txBucket_eq_none_iff tx name).1 h
  conv_rhs => rw [← List.map_id tx]
  apply List.map_congr_left
  intro e he
  simp [hne e he]

/-- Looking a name up after the `circuit-fwd-log` bucket was pruned. -/
theorem txBucket_pruneFwdLog (c : Int) (tx : Store) (n : GoString) :
    Tx.Bucket (pruneFwdLog c tx) n
      = (Tx.Bucket tx n).map
          (fun b => if n = ascii "circuit-fwd-log" then (clearForwardingLog b c).1 else b) := by
  unfold pruneFwdLog
  cases h : Tx.Bucket tx (ascii "circuit-fwd-log") with
  | none =>
    simp only []
    by_cases hn : n = ascii "circuit-fwd-log"
    · rw [hn, h]; rfl
    · simp [hn]
  | some b =>
    simp only []
    rw [txBucket_setBucket]
    by_cases hn : n = ascii "circuit-fwd-log"
    · rw [if_pos hn, hn, h]; simp
    · rw [if_neg hn]; simp [hn]

theorem pruneFwdLog_of_some (c : Int) (tx : Store) (b : Bucket)
    (h : Tx.Bucket tx (ascii "circuit-fwd-log") = some b) :
    pruneFwdLog c tx
      = Tx.setBucket tx (ascii "circuit-fwd-log") (clearForwardingLog b c).1 := by
  unfold pruneFwdLog
  rw [h]

theorem pruneFwdLog_of_none (c : Int) (tx : Store)
    (h : Tx.Bucket tx (ascii "circuit-fwd-log") = none) : pruneFwdLog c tx = tx := by
  unfold pruneFwdLog
  rw [h]

theorem pruneFwdLog_idem (c : Int) (tx : Store) :
    pruneFwdLog c (pruneFwdLog c tx) = pruneFwdLog c tx := by
  cases h : Tx.Bucket tx (ascii "circuit-fwd-log") with
  | none =>
    rw [pruneFwdLog_of_none c tx h, pruneFwdLog_of_none c tx h]
  | some b =>
    have h2 : Tx.Bucket (pruneFwdLog c tx) (ascii "circuit-fwd-log")
        = some (clearForwardingLog b c).1 := by
      rw [txBucket_pruneFwdLog, h]; simp
    rw [pruneFwdLog_of_some c _ _ h2, clearForwardingLog_again, pruneFwdLog_of_some c tx b h,
      setBucket_setBucket]

theorem clearOldEntriesStep_absent (c o : Int) (st : TxState) (name : GoString)
    (h : Tx.Bucket st.1 name = none) :
    clearOldEntriesStep c o st name = (st.1, st.2 ++ [Line.bucketMissing name]) := by
  unfold clearOldEntriesStep
  rw [h]

/-- A step on a name other than `circuit-fwd-log` leaves every bucket as it is. -/
theorem clearOldEntriesStep_other (c o : Int) (st : TxState) (name : GoString)
    (hn : name ≠ ascii "circuit-fwd-log") :
    (clearOldEntriesStep c o st name).1 = st.1 := by
  unfold clearOldEntriesStep
  cases Tx.Bucket st.1 name with
  | none => rfl
  | some b =>
    simp only [hn, if_false]
    split <;> rfl

theorem clearOldEntriesStep_fwd (c o : Int) (st : TxState) :
    (clearOldEntriesStep c o st (ascii "circuit-fwd-log")).1 = pruneFwdLog c st.1 := by
  unfold clearOldEntriesStep pruneFwdLog
  cases Tx.Bucket st.1 (ascii "circuit-fwd-log") with
  | none => rfl
  | some b => simp

/-- The buckets left by the loop of `clearOldEntries`. -/
theorem clearOldEntries_fold_store (c o : Int) (buckets : List GoString) (st : TxState) :
    (buckets.foldl (clearOldEntriesStep c o) st).1
      = if ascii "circuit-fwd-log" ∈ buckets then pruneFwdLog c st.1 else st.1 := by
  induction buckets generalizing st with
  | nil => simp
  | cons name rest ih =>
    rw [List.foldl_cons, ih]
    by_cases hn : name = ascii "circuit-fwd-log"
    · subst hn
      rw [clearOldEntriesStep_fwd]
      by_cases hr : ascii "circuit-fwd-log" ∈ rest
      · simp [hr, pruneFwdLog_idem]
      · simp [hr]
    · rw [clearOldEntriesStep_other c o st name hn]
      have : (ascii "circuit-fwd-log" ∈ name :: rest) ↔ ascii "circuit-fwd-log" ∈ rest := by
        simp only [List.mem_cons]
        constructor
        · rintro (h | h)
          · exact absurd h.symm hn
          · exact h
        · exact Or.inr
      simp only [this]

theorem clearOldEntries_store (db : Store) (buckets : List GoString) (o now : Int)
    (commitOk : Bool) :
    (clearOldEntries db buckets o now commitOk).1
      = if commitOk then
          (if ascii "circuit-fwd-log" ∈ buckets then pruneFwdLog (cutoffNanoOf now o) db else db)
        else db := by
  unfold clearOldEntries DB.Update clearOldEntriesTx
  cases commitOk with
  | true =>
    simp only [if_true]
    exact clearOldEntries_fold_store _ o buckets (db, [])
  | false => rfl

theorem clearOldEntries_out (db : Store) (buckets : List GoString) (o now : Int)
    (commitOk : Bool) :
    (clearOldEntries db buckets o now commitOk).2
      = (clearOldEntriesTx (cutoffNanoOf now o) o buckets db).2 := by
  unfold clearOldEntries DB.Update
  cases commitOk <;> rfl

/-! ## Lemmas on the output of the two loops -/

/-- A loop whose step appends its lines to the log: the lines printed before
the loop stay in front, and the rest does not depend on them. -/
theorem fold_out_append (step : TxState → GoString → TxState)
    (hstep : ∀ st name,
      step st name = ((step (st.1, []) name).1, st.2 ++ (step (st.1, []) name).2))
    (names : List GoString) (st : TxState) :
    names.foldl step st
      = ((names.foldl step (st.1, [])).1, st.2 ++ (names.foldl step (st.1, [])).2) := by
  induction names generalizing st with
  | nil => simp
  | cons name rest ih =>
    rw [List.foldl_cons, List.foldl_cons, ih (step st name), ih (step (st.1, []) name)]
    rw [hstep st name]
    simp only [List.append_assoc]

theorem clearBucketsStep_out (st : TxState) (name : GoString) :
    clearBucketsStep st name
      = ((clearBucketsStep (st.1, []) name).1, st.2 ++ (clearBucketsStep (st.1, []) name).2) := by
  cases h : Tx.Bucket st.1 name with
  | none =>
    rw [clearBucketsStep_absent st name h, clearBucketsStep_absent (st.1, []) name h]
    rfl
  | some b =>
    rw [clearBucketsStep_present st name b h, clearBucketsStep_present (st.1, []) name b h]
    rfl

theorem clearOldEntriesStep_out (c o : Int) (st : TxState) (name : GoString) :
    clearOldEntriesStep c o st name
      = ((clearOldEntriesStep c o (st.1, []) name).1,
         st.2 ++ (clearOldEntriesStep c o (st.1, []) name).2) := by
  unfold clearOldEntriesStep
  cases Tx.Bucket st.1 name with
  | none => rfl
  | some b =>
    simp only []
    split
    · rfl
    · split <;> rfl

/-- Splitting a run of a loop at a name whose step only prints `line`. -/
theorem fold_skip (step : TxState → GoString → TxState)
    (hstep : ∀ st name,
      step st name = ((step (st.1, []) name).1, st.2 ++ (step (st.1, []) name).2))
    (xs ys : List GoString) (name : GoString) (line : Line) (db : Store)
    (hskip : step (xs.foldl step (db, [])) name
      = ((xs.foldl step (db, [])).1, (xs.foldl step (db, [])).2 ++ [line])) :
    ((xs ++ name :: ys).foldl step (db, [])).1 = ((xs ++ ys).foldl step (db, [])).1
    ∧ ∃ rest : List Line,
        ((xs ++ ys).foldl step (db, [])).2 = (xs.foldl step (db, [])).2 ++ rest
        ∧ ((xs ++ name :: ys).foldl step (db, [])).2
            = (xs.foldl step (db, [])).2 ++ [line] ++ rest := by
  rw [List.foldl_append, List.foldl_append, List.foldl_cons, hskip]
  rw [fold_out_append step hstep ys ((xs.foldl step (db, [])).1, _)]
  rw [fold_out_append step hstep ys (xs.foldl step (db, []))]
  exact ⟨rfl, _, rfl, rfl⟩

/-- On a transaction without any of the named buckets, the loop of
`clearBuckets` only prints that each is missing. -/
theorem clearBuckets_fold_absent (buckets : List GoString) (st : TxState)
    (h : ∀ name ∈ buckets, Tx.Bucket st.1 name = none) :
    buckets.foldl clearBucketsStep st
      = (st.1, st.2 ++ buckets.map Line.bucketAlreadyEmpty) := by
  induction buckets generalizing st with
  | nil => simp
  | cons name rest ih =>
    rw [List.foldl_cons, clearBucketsStep_absent st name (h name (List.mem_cons_self _ _))]
    rw [ih (st.1, st.2 ++ [Line.bucketAlreadyEmpty name])
      (fun n hn => h n (List.mem_cons_of_mem _ hn))]
    simp

/-- A transaction on which `clearForwardingLog` has nothing left to delete. -/
theorem clearOldEntriesStep_pruned (c o : Int) (st : TxState) (name : GoString)
    (hp : pruneFwdLog c st.1 = st.1)
    (hz : ∀ b, Tx.Bucket st.1 (ascii "circuit-fwd-log") = some b → (clearForwardingLog b c).2 = 0)
    (hout : ∀ n nm d, Line.deletedEvents n nm d ∈ st.2 → n = 0) :
    (clearOldEntriesStep c o st name).1 = st.1
    ∧ ∀ n nm d, Line.deletedEvents n nm d ∈ (clearOldEntriesStep c o st name).2 → n = 0 := by
  by_cases hn : name = ascii "circuit-fwd-log"
  · subst hn
    refine ⟨by rw [clearOldEntriesStep_fwd, hp], ?_⟩
    unfold clearOldEntriesStep
    cases hb : Tx.Bucket st.1 (ascii "circuit-fwd-log") with
    | none =>
      intro n nm d hm
      simp only [List.mem_append, List.mem_singleton] at hm
      rcases hm with hm | hm
      · exact hout n nm d hm
      · cases hm
    | some b =>
      intro n nm d hm
      simp only [if_true, List.mem_append, List.mem_singleton] at hm
      rcases hm with hm | hm
      · exact hout n nm d hm
      · cases hm
        exact hz b hb
  · refine ⟨clearOldEntriesStep_other c o st name hn, ?_⟩
    unfold clearOldEntriesStep
    cases Tx.Bucket st.1 name with
    | none =>
      intro n nm d hm
      simp only [List.mem_append, List.mem_singleton] at hm
      rcases hm with hm | hm
      · exact hout n nm d hm
      · cases hm
    | some b =>
      simp only [hn, if_false]
      split
      · intro n nm d hm
        simp only [List.mem_append, List.mem_cons, List.mem_singleton, List.not_mem_nil,
          or_false] at hm
        rcases hm with hm | hm | hm
        · exact hout n nm d hm
        · cases hm
        · cases hm
      · intro n nm d hm
        simp only [List.mem_append, List.mem_singleton] at hm
        rcases hm with hm | hm
        · exact hout n nm d hm
        · cases hm

theorem clearOldEntries_fold_pruned (c o : Int) (buckets : List GoString) (st : TxState)
    (hp : pruneFwdLog c st.1 = st.1)
    (hz : ∀ b, Tx.Bucket st.1 (ascii "circuit-fwd-log") = some b → (clearForwardingLog b c).2 = 0)
    (hout : ∀ n nm d, Line.deletedEvents n nm d ∈ st.2 → n = 0) :
    (buckets.foldl (clearOldEntriesStep c o) st).1 = st.1
    ∧ ∀ n nm d, Line.deletedEvents n nm d ∈ (buckets.foldl (clearOldEntriesStep c o) st).2
        → n = 0 := by
  induction buckets generalizing st with
  | nil => exact ⟨rfl, hout⟩
  | cons name rest ih =>
    obtain ⟨h1, h2⟩ := clearOldEntriesStep_pruned c o st name hp hz hout
    rw [List.foldl_cons]
    have := ih (clearOldEntriesStep c o st name) (by rw [h1]; exact hp)
      (by rw [h1]; exact hz) h2
    rw [h1] at this
    exact this

/-- With no `circuit-fwd-log` among the names, no count of deleted events is
printed at all. -/
theorem clearOldEntries_fold_noFwd (c o : Int) (buckets : List GoString) (st : TxState)
    (hn : ascii "circuit-fwd-log" ∉ buckets)
    (hout : ∀ n nm d, Line.deletedEvents n nm d ∈ st.2 → n = 0) :
    ∀ n nm d, Line.deletedEvents n nm d ∈ (buckets.foldl (clearOldEntriesStep c o) st).2
        → n = 0 := by
  induction buckets generalizing st with
  | nil => exact hout
  | cons name rest ih =>
    rw [List.foldl_cons]
    apply ih _ (fun h => hn (List.mem_cons_of_mem _ h))
    have hne : name ≠ ascii "circuit-fwd-log" := fun h => hn (h ▸ List.mem_cons_self _ _)
    unfold clearOldEntriesStep
    cases Tx.Bucket st.1 name with
    | none =>
      intro n nm d hm
      simp only [List.mem_append, List.mem_singleton] at hm
      rcases hm with hm | hm
      · exact hout n nm d hm
      · cases hm
    | some b =>
      simp only [hne, if_false]
      split
      · intro n nm d hm
        simp only [List.mem_append, List.mem_cons, List.mem_singleton, List.not_mem_nil,
          or_false] at hm
        rcases hm with hm | hm | hm
        · exact hout n nm d hm
        · cases hm
        · cases hm
      · intro n nm d hm
        simp only [List.mem_append, List.mem_singleton] at hm
        rcases hm with hm | hm
        · exact hout n nm d hm
        · cases hm

/-- After pruning, the transaction is a fixed point of pruning and its
`circuit-fwd-log` bucket has no expired entry left. -/
theorem pruneFwdLog_count_zero (c : Int) (tx : Store) (b : Bucket)
    (h : Tx.Bucket (pruneFwdLog c tx) (ascii "circuit-fwd-log") = some b) :
    (clearForwardingLog b c).2 = 0 := by
  rw [txBucket_pruneFwdLog] at h
  cases h0 : Tx.Bucket tx (ascii "circuit-fwd-log") with
  | none => rw [h0] at h; cases h
  | some b0 =>
    rw [h0] at h
    simp only [Option.map_some', if_true, Option.some.injEq] at h
    rw [← h, clearForwardingLog_again]

/-! ## Frame lemmas shared by the claims -/

theorem clearBuckets_committed_store (db : Store) (buckets : List GoString) :
    (clearBuckets db buckets true).1 = db.filter (fun e => decide (e.1 ∉ buckets)) := by
  rw [clearBuckets_store]
  rfl

theorem clearBuckets_named_absent (db : Store) (buckets : List GoString) :
    ∀ name ∈ buckets, Tx.Bucket (clearBuckets db buckets true).1 name = none := by
  intro name hn
  rw [clearBuckets_committed_store, txBucket_filter_notMem, if_pos hn]

theorem clearOldEntries_other_bucket (db : Store) (buckets : List GoString)
    (olderThan now : Int) (commitOk : Bool) (name : GoString)
    (hn : name ≠ ascii "circuit-fwd-log") :
    Tx.Bucket (clearOldEntries db buckets olderThan now commitOk).1 name = Tx.Bucket db name := by
  rw [clearOldEntries_store]
  cases commitOk with
  | false => rfl
  | true =>
    simp only [if_true]
    split
    · rw [txBucket_pruneFwdLog]
      simp only [hn, if_false]
      cases Tx.Bucket db name <;> rfl
    · rfl

theorem clearOldEntries_noFwd_store (db : Store) (buckets : List GoString)
    (olderThan now : Int) (commitOk : Bool) (hn : ascii "circuit-fwd-log" ∉ buckets) :
    (clearOldEntries db buckets olderThan now commitOk).1 = db := by
  rw [clearOldEntries_store]
  cases commitOk with
  | false => rfl
  | true => simp only [if_true, if_neg hn]

/-- Every `int64` cutoff is the cutoff of some run: that of a run at clock
reading `c` with a zero duration. -/
theorem cutoffNanoOf_zero (c : Int) (h : InInt64 c) : cutoffNanoOf c 0 = c := by
  unfold InInt64 at h
  unfold cutoffNanoOf int64
  omega

/-- With a positive final `olderThan`, at least one bucket name and a database
that opens, `main` runs `clearOldEntries` and nothing else on the store. -/
theorem main_positive_duration (prog path : GoString) (rest : List GoString) (file : Store)
    (now olderThan : Int) (commitOk : Bool) (bucketsToDelete : List GoString)
    (hp : parseFlags rest 0 [] = .ok (olderThan, bucketsToDelete))
    (hb : bucketsToDelete ≠ []) (ho : olderThan > 0) :
    (main (prog :: path :: rest) file now true commitOk).db
      = (clearOldEntries file bucketsToDelete olderThan now commitOk).1 := by
  have hl : ¬ (prog :: path :: rest).length < 2 := by simp
  have hb2 : ¬ bucketsToDelete.length = 0 := fun h => hb (List.length_eq_zero.1 h)
  unfold main
  rw [if_neg hl]
  simp only [List.drop_succ_cons, List.drop_zero, hp]
  rw [if_neg hb2, if_neg (by simp), if_pos ho]

/-! ## The claims on `main`, `clearBuckets` and `clearOldEntries` -/

/-- C5 fails on the code: `--older-than=0d` is a value `parseDuration` accepts
(as the duration 0), yet `main` tests `olderThan > 0`, takes the branch of
`clearBuckets` and removes the whole `circuit-fwd-log` bucket, where
`clearOldEntries` with the same arguments would have left the bucket and its
entry (timestamped after the cutoff) in place. The overflowing `106752d`
(a negative duration) takes the same branch. -/
theorem main_older_than_zero_clears_bucket :
    parseDuration (ascii "0d") = .ok 0
    ∧ main [ascii "clearlogs", ascii "channel.db", ascii "--older-than=0d",
          ascii "circuit-fwd-log"]
        [(ascii "circuit-fwd-log", [([64, 0, 0, 0, 0, 0, 0, 0], [7])])]
        1700000000000000000 true true
      = ⟨0, [Line.clearingEntire, Line.deletedBucket (ascii "circuit-fwd-log"), Line.complete],
          []⟩
    ∧ (clearOldEntries [(ascii "circuit-fwd-log", [([64, 0, 0, 0, 0, 0, 0, 0], [7])])]
        [ascii "circuit-fwd-log"] 0 1700000000000000000 true).1
      = [(ascii "circuit-fwd-log", [([64, 0, 0, 0, 0, 0, 0, 0], [7])])]
    ∧ (main [ascii "clearlogs", ascii "channel.db", ascii "--older-than=106752d",
          ascii "circuit-fwd-log"]
        [(ascii "circuit-fwd-log", [([64, 0, 0, 0, 0, 0, 0, 0], [7])])]
        1700000000000000000 true true).db = [] :=
  ⟨by decide, by decide, by decide, by decide⟩

/-- C6: `clearOldEntries` deletes nothing in a bucket whose name is not
`circuit-fwd-log`: every such bucket is found afterwards with the entries it
had; and when the list does not name `circuit-fwd-log` the store afterwards is
the store before. -/
theorem clearOldEntries_refuses (db : Store) (buckets : List GoString) (olderThan now : Int)
    (commitOk : Bool) :
    (∀ name, name ≠ ascii "circuit-fwd-log" →
      Tx.Bucket (clearOldEntries db buckets olderThan now commitOk).1 name = Tx.Bucket db name)
    ∧ (ascii "circuit-fwd-log" ∉ buckets →
      (clearOldEntries db buckets olderThan now commitOk).1 = db) :=
  ⟨fun name hn => clearOldEntries_other_bucket db buckets olderThan now commitOk name hn,
   fun hn => clearOldEntries_noFwd_store db buckets olderThan now commitOk hn⟩

/-- C6 on the example database: asked to clean `closed-chan-bucket`,
`historical-chan-bucket` and an unknown bucket by age, `clearOldEntries`
leaves the store as it is. -/
theorem clearOldEntries_refuses_witness :
    (clearOldEntries exampleDB
      [ascii "closed-chan-bucket", ascii "historical-chan-bucket", ascii "peers"]
      86400000000000 1700000000000000000 true).1 = exampleDB :=
  (clearOldEntries_refuses exampleDB _ 86400000000000 1700000000000000000 true).2 (by decide)

/-- C7: after a run of `clearBuckets` whose transaction commits, the store is
the original store without the buckets named in the list, whatever their
names: none of the named buckets exists any more. -/
theorem clearBuckets_deletes_named (db : Store) (buckets : List GoString) :
    (clearBuckets db buckets true).1 = db.filter (fun e => decide (e.1 ∉ buckets))
    ∧ (∀ name ∈ buckets, Tx.Bucket (clearBuckets db buckets true).1 name = none)
    ∧ (∀ e ∈ (clearBuckets db buckets true).1, e.1 ∉ buckets) := by
  have hs := clearBuckets_committed_store db buckets
  refine ⟨hs, clearBuckets_named_absent db buckets, ?_⟩
  · intro e he
    rw [hs] at he
    have := (List.mem_filter.1 he).2
    simpa using this

/-- C7 on the example database: both buckets are named, and both are gone. -/
theorem clearBuckets_deletes_named_witness :
    Tx.Bucket (clearBuckets exampleDB
      [ascii "closed-chan-bucket", ascii "circuit-fwd-log"] true).1 (ascii "circuit-fwd-log")
      = none :=
  (clearBuckets_deletes_named exampleDB _).2.1 (ascii "circuit-fwd-log") (by decide)

/-- C8: a name that is not a bucket of the store is a no-op for `clearBuckets`
and for `clearOldEntries`: the update returns no error, the store afterwards
is the store of the run without that name, and the output is the output of the
run without that name with the one line saying that the bucket does not exist
put in at the place of the name. -/
theorem absent_bucket_noop (db : Store) (xs ys : List GoString) (name : GoString)
    (olderThan now : Int) (commitOk : Bool) (h : Tx.Bucket db name = none) :
    ((clearBuckets db (xs ++ name :: ys) commitOk).1 = (clearBuckets db (xs ++ ys) commitOk).1
      ∧ ∃ rest : List Line,
          (clearBuckets db (xs ++ ys) commitOk).2 = (clearBuckets db xs commitOk).2 ++ rest
          ∧ (clearBuckets db (xs ++ name :: ys) commitOk).2
              = (clearBuckets db xs commitOk).2 ++ [Line.bucketAlreadyEmpty name] ++ rest)
    ∧ ((clearOldEntries db (xs ++ name :: ys) olderThan now commitOk).1
          = (clearOldEntries db (xs ++ ys) olderThan now commitOk).1
      ∧ ∃ rest : List Line,
          (clearOldEntries db (xs ++ ys) olderThan now commitOk).2
              = (clearOldEntries db xs olderThan now commitOk).2 ++ rest
          ∧ (clearOldEntries db (xs ++ name :: ys) olderThan now commitOk).2
              = (clearOldEntries db xs olderThan now commitOk).2
                  ++ [Line.bucketMissing name] ++ rest)
    ∧ (DB.Update db true
          (fun tx => ((xs ++ name :: ys).foldl clearBucketsStep (tx, []), none))).2 = none
    ∧ (DB.Update db true
          (fun tx => (clearOldEntriesTx (cutoffNanoOf now olderThan) olderThan
            (xs ++ name :: ys) tx, none))).2 = none := by
  refine ⟨?_, ?_, rfl, rfl⟩
  · -- clearBuckets
    have habs : Tx.Bucket (xs.foldl clearBucketsStep (db, [])).1 name = none := by
      rw [clearBuckets_fold_store, txBucket_filter_notMem]
      split
      · rfl
      · exact h
    have hskip := clearBucketsStep_absent (xs.foldl clearBucketsStep (db, [])) name habs
    obtain ⟨h1, rest, h2, h3⟩ :=
      fold_skip clearBucketsStep clearBucketsStep_out xs ys name _ db hskip
    refine ⟨?_, rest, ?_, ?_⟩
    · rw [clearBuckets_store, clearBuckets_store]
      cases commitOk with
      | false => rfl
      | true =>
        simp only [if_true]
        rw [← clearBuckets_fold_store (xs ++ name :: ys) (db, []),
          ← clearBuckets_fold_store (xs ++ ys) (db, [])]
        exact h1
    · rw [clearBuckets_out, clearBuckets_out]; exact h2
    · rw [clearBuckets_out, clearBuckets_out]; exact h3
  · -- clearOldEntries
    have habs : Tx.Bucket
        (xs.foldl (clearOldEntriesStep (cutoffNanoOf now olderThan) olderThan) (db, [])).1 name
          = none := by
      rw [clearOldEntries_fold_store]
      split
      · rw [txBucket_pruneFwdLog, h]; rfl
      · exact h
    have hskip := clearOldEntriesStep_absent (cutoffNanoOf now olderThan) olderThan
      (xs.foldl (clearOldEntriesStep (cutoffNanoOf now olderThan) olderThan) (db, [])) name habs
    obtain ⟨h1, rest, h2, h3⟩ :=
      fold_skip (clearOldEntriesStep (cutoffNanoOf now olderThan) olderThan)
        (clearOldEntriesStep_out _ _) xs ys name _ db hskip
    refine ⟨?_, rest, ?_, ?_⟩
    · cases commitOk with
      | false => rfl
      | true => exact h1
    · rw [clearOldEntries_out, clearOldEntries_out]; exact h2
    · rw [clearOldEntries_out, clearOldEntries_out]; exact h3

/-- C8 on the example database, which has no bucket `peers`: naming it between
the two existing buckets leaves the store of the run without it. -/
theorem absent_bucket_noop_witness :
    Tx.Bucket exampleDB (ascii "peers") = none
    ∧ (clearBuckets exampleDB
        ([ascii "circuit-fwd-log"] ++ ascii "peers" :: [ascii "closed-chan-bucket"]) true).1
      = (clearBuckets exampleDB
        ([ascii "circuit-fwd-log"] ++ [ascii "closed-chan-bucket"]) true).1 :=
  ⟨by decide,
   (absent_bucket_noop exampleDB [ascii "circuit-fwd-log"] [ascii "closed-chan-bucket"]
      (ascii "peers") 0 250 true (by decide)).1.1⟩

/-- C9: running the same operation again on the result of a committed first
run leaves the store unchanged. The second `clearBuckets` finds every named
bucket absent and prints only that, for each name; the second
`clearOldEntries` (same cutoff) prints a deleted count of 0 wherever it prints
a count; and `clearForwardingLog` on its own result returns 0 and the bucket
as it is. -/
theorem second_run_unchanged (db : Store) (buckets : List GoString) (olderThan now : Int)
    (commitOk : Bool) :
    clearBuckets (clearBuckets db buckets true).1 buckets commitOk
        = ((clearBuckets db buckets true).1, buckets.map Line.bucketAlreadyEmpty)
    ∧ (clearOldEntries (clearOldEntries db buckets olderThan now true).1 buckets olderThan now
          commitOk).1
        = (clearOldEntries db buckets olderThan now true).1
    ∧ (∀ n name d,
        Line.deletedEvents n name d ∈
          (clearOldEntries (clearOldEntries db buckets olderThan now true).1 buckets olderThan
            now commitOk).2 → n = 0)
    ∧ (∀ (bucket : Bucket) (cutoffNano : Int),
        clearForwardingLog (clearForwardingLog bucket cutoffNano).1 cutoffNano
          = ((clearForwardingLog bucket cutoffNano).1, 0)) := by
  refine ⟨?_, ?_, ?_, clearForwardingLog_again⟩
  · -- clearBuckets
    have habs := clearBuckets_named_absent db buckets
    have hf := clearBuckets_fold_absent buckets ((clearBuckets db buckets true).1, []) habs
    refine Prod.ext ?_ ?_
    · rw [clearBuckets_store]
      cases commitOk with
      | false => rfl
      | true =>
        simp only [if_true]
        rw [← clearBuckets_fold_store buckets ((clearBuckets db buckets true).1, []), hf]
    · rw [clearBuckets_out, hf]
      rfl
  · -- the store after the second `clearOldEntries`
    rw [clearOldEntries_store _ buckets olderThan now commitOk,
      clearOldEntries_store db buckets olderThan now true]
    cases commitOk with
    | false => rfl
    | true =>
      simp only [if_true]
      split
      · exact pruneFwdLog_idem _ db
      · rfl
  · -- the counts printed by the second `clearOldEntries`
    rw [clearOldEntries_out, clearOldEntries_store db buckets olderThan now true]
    simp only [if_true]
    unfold clearOldEntriesTx
    by_cases hm : ascii "circuit-fwd-log" ∈ buckets
    · rw [if_pos hm]
      exact (clearOldEntries_fold_pruned _ olderThan buckets
        (pruneFwdLog (cutoffNanoOf now olderThan) db, [])
        (pruneFwdLog_idem _ db)
        (fun b hb => pruneFwdLog_count_zero _ db b hb)
        (fun _ _ _ h => by cases h)).2
    · rw [if_neg hm]
      exact clearOldEntries_fold_noFwd _ olderThan buckets (db, []) hm
        (fun _ _ _ h => by cases h)

/-- C10: a bucket whose name is not in the list is found after `clearBuckets`
and after `clearOldEntries` exactly as it was before the run. -/
theorem other_buckets_untouched (db : Store) (buckets : List GoString) (name : GoString)
    (olderThan now : Int) (commitOk : Bool) (h : name ∉ buckets) :
    Tx.Bucket (clearBuckets db buckets commitOk).1 name = Tx.Bucket db name
    ∧ Tx.Bucket (clearOldEntries db buckets olderThan now commitOk).1 name
        = Tx.Bucket db name := by
  constructor
  · rw [clearBuckets_store]
    cases commitOk with
    | false => rfl
    | true =>
      simp only [if_true]
      rw [txBucket_filter_notMem, if_neg h]
  · by_cases hn : name = ascii "circuit-fwd-log"
    · have hm : ascii "circuit-fwd-log" ∉ buckets := hn ▸ h
      rw [clearOldEntries_noFwd_store db buckets olderThan now commitOk hm]
    · exact clearOldEntries_other_bucket db buckets olderThan now commitOk name hn

/-- C10 on the example database: clearing the forwarding log, entirely or by
age, leaves `closed-chan-bucket` with its entry. -/
theorem other_buckets_untouched_witness :
    ascii "closed-chan-bucket" ∉ [ascii "circuit-fwd-log"]
    ∧ Tx.Bucket (clearBuckets exampleDB [ascii "circuit-fwd-log"] true).1
        (ascii "closed-chan-bucket") = some [([1, 2, 3], [4])]
    ∧ Tx.Bucket (clearOldEntries exampleDB [ascii "circuit-fwd-log"] 0 250 true).1
        (ascii "closed-chan-bucket") = some [([1, 2, 3], [4])] :=
  ⟨by decide,
   (other_buckets_untouched exampleDB [ascii "circuit-fwd-log"] (ascii "closed-chan-bucket")
      0 250 true (by decide)).1.trans (by decide),
   (other_buckets_untouched exampleDB [ascii "circuit-fwd-log"] (ascii "closed-chan-bucket")
      0 250 true (by decide)).2.trans (by decide)⟩

/-- C9 on the example database: after a first, committed `clearBuckets` of the
forwarding log, the second run finds it absent and changes nothing. -/
theorem second_run_unchanged_witness :
    clearBuckets (clearBuckets exampleDB [ascii "circuit-fwd-log"] true).1
        [ascii "circuit-fwd-log"] true
      = ([(ascii "closed-chan-bucket", [([1, 2, 3], [4])])],
         [Line.bucketAlreadyEmpty (ascii "circuit-fwd-log")]) :=
  (second_run_unchanged exampleDB [ascii "circuit-fwd-log"] 0 250 true).1.trans (by decide)

/-! ## Lemmas on the key encoding -/

theorem encode_length (t : Int) : (encode t).length = 8 := rfl

theorem bytes_of_uint64 (u : Nat) (hlt : u < 2 ^ 64) :
    (((((((0 * 256 + u / 2 ^ 56 % 256) * 256 + u / 2 ^ 48 % 256) * 256 + u / 2 ^ 40 % 256) * 256
      + u / 2 ^ 32 % 256) * 256 + u / 2 ^ 24 % 256) * 256 + u / 2 ^ 16 % 256) * 256
      + u / 2 ^ 8 % 256) * 256 + u % 256 = u := by
  omega

/-- The big-endian value of an encoded key is the timestamp modulo 2^64. -/
theorem bigEndianValue_encode (t : Int) :
    bigEndianValue (encode t) = (t % 2 ^ 64).toNat := by
  have hlt : (t % 2 ^ 64).toNat < 2 ^ 64 := by
    have h1 : 0 ≤ t % 2 ^ 64 := Int.emod_nonneg _ (by norm_num)
    have h2 : t % 2 ^ 64 < 2 ^ 64 := Int.emod_lt_of_pos _ (by norm_num)
    omega
  simp only [encode, bigEndianValue, List.foldl, Fin.ofNat, Fin.val_mk, Nat.reduceAdd]
  exact bytes_of_uint64 _ hlt

/-- Decoding, as `clearForwardingLog` does, the key of any `int64` timestamp
gives the timestamp back. -/
theorem decode_encode_all (t : Int) (h : InInt64 t) : decode (encode t) = some t := by
  unfold decode
  rw [uint64_eq_bigEndianValue _ (encode_length t), bigEndianValue_encode]
  unfold InInt64 at h
  have h1 : 0 ≤ t % 2 ^ 64 := Int.emod_nonneg _ (by norm_num)
  simp only []
  rw [Int.toNat_of_nonneg h1]
  congr 1
  unfold int64
  omega

/-- On an 8-byte key the timestamp the code reads is the timestamp the
specification reads. -/
theorem decode_eq_keyTimestamp (k : List Byte) (h : k.length = 8) :
    decode k = some (keyTimestamp k) := by
  unfold decode keyTimestamp
  rw [uint64_eq_bigEndianValue k h]

/-- C12: for every `int64` timestamp `t >= 0`, decoding as `clearForwardingLog`
does (big-endian unsigned 64-bit read of the 8 bytes, reinterpreted as
`int64`) the 8-byte big-endian encoding of `t` yields `t`. -/
theorem decode_encode (t : Int) (h0 : 0 ≤ t) (h1 : t < 2 ^ 63) :
    (encode t).length = 8 ∧ decode (encode t) = some t :=
  ⟨encode_length t, decode_encode_all t ⟨by omega, h1⟩⟩

/-- C12 at the timestamp 300: the key is `00 00 00 00 00 00 01 2c` and it
decodes to 300. -/
theorem decode_encode_witness :
    (0 : Int) ≤ 300 ∧ (300 : Int) < 2 ^ 63 ∧ encode 300 = [0, 0, 0, 0, 0, 0, 1, 44]
    ∧ decode (encode 300) = some 300 :=
  ⟨by decide, by decide, by decide, (decode_encode 300 (by decide) (by decide)).2⟩

/-! ## Lemmas on the key order -/

theorem foldl_bigEndian_acc (l : List Byte) (acc : Nat) :
    l.foldl (fun acc b => acc * 256 + b.val) acc
      = acc * 256 ^ l.length + l.foldl (fun acc b => acc * 256 + b.val) 0 := by
  induction l generalizing acc with
  | nil => simp
  | cons b rest ih =>
    simp only [List.foldl_cons, List.length_cons]
    rw [ih (acc * 256 + b.val), ih (0 * 256 + b.val)]
    ring

theorem bigEndianValue_cons (b : Byte) (rest : List Byte) :
    bigEndianValue (b :: rest) = b.val * 256 ^ rest.length + bigEndianValue rest := by
  unfold bigEndianValue
  rw [List.foldl_cons, foldl_bigEndian_acc]
  simp

theorem bigEndianValue_lt (l : List Byte) : bigEndianValue l < 256 ^ l.length := by
  induction l with
  | nil => simp [bigEndianValue]
  | cons b rest ih =>
    rw [bigEndianValue_cons, List.length_cons, pow_succ]
    have hb := b.isLt
    have hle : b.val * 256 ^ rest.length ≤ 255 * 256 ^ rest.length :=
      Nat.mul_le_mul_right _ (by omega)
    omega

/-- On keys of the same length the key order of the store is the numeric
order of the big-endian values. -/
theorem bytesLess_iff_value_lt (k1 k2 : List Byte) (h : k1.length = k2.length) :
    bytesLess k1 k2 = true ↔ bigEndianValue k1 < bigEndianValue k2 := by
  induction k1 generalizing k2 with
  | nil =>
    cases k2 with
    | nil => simp [bytesLess, bigEndianValue]
    | cons b bs => simp at h
  | cons a as ih =>
    cases k2 with
    | nil => simp at h
    | cons b bs =>
      have hl : as.length = bs.length := by simpa using h
      rw [bigEndianValue_cons, bigEndianValue_cons, hl]
      have h1 := bigEndianValue_lt as
      have h2 := bigEndianValue_lt bs
      rw [hl] at h1
      unfold bytesLess
      by_cases hab : a < b
      · rw [if_pos hab]
        have hv : a.val + 1 ≤ b.val := Fin.lt_def.1 hab
        have hm : (a.val + 1) * 256 ^ bs.length ≤ b.val * 256 ^ bs.length :=
          Nat.mul_le_mul_right _ hv
        rw [Nat.add_mul] at hm
        simp only [true_iff]
        omega
      · rw [if_neg hab]
        by_cases hba : b < a
        · rw [if_pos hba]
          have hv : b.val + 1 ≤ a.val := Fin.lt_def.1 hba
          have hm : (b.val + 1) * 256 ^ bs.length ≤ a.val * 256 ^ bs.length :=
            Nat.mul_le_mul_right _ hv
          rw [Nat.add_mul] at hm
          simp only [Bool.false_eq_true, false_iff]
          omega
        · rw [if_neg hba]
          have hv : a.val = b.val := by
            have h3 : ¬ a.val < b.val := fun hc => hab (Fin.lt_def.2 hc)
            have h4 : ¬ b.val < a.val := fun hc => hba (Fin.lt_def.2 hc)
            omega
          rw [ih bs hl, hv]
          omega

/-- A key decodes to a non-negative timestamp when its value is below 2^63,
and then the timestamp is the value. -/
theorem keyTimestamp_nonneg_iff (k : List Byte) (h : k.length = 8) :
    (0 ≤ keyTimestamp k ↔ bigEndianValue k < 2 ^ 63)
    ∧ (bigEndianValue k < 2 ^ 63 → keyTimestamp k = bigEndianValue k) := by
  have hlt := bigEndianValue_lt k
  rw [h] at hlt
  norm_num at hlt
  unfold keyTimestamp int64
  constructor
  · omega
  · intro hv
    omega

/-- C13: for `int64` timestamps `0 <= t1 < t2` the 8-byte big-endian encoding
of `t1` is byte-lexicographically less than that of `t2`; and for any two
8-byte keys that the code decodes to non-negative timestamps, the
byte-lexicographic order of the keys agrees with the numeric order of the
decoded timestamps. -/
theorem key_order_agrees :
    (∀ t1 t2 : Int, 0 ≤ t1 → t1 < t2 → t2 < 2 ^ 63 →
      bytesLess (encode t1) (encode t2) = true)
    ∧ (∀ (k1 k2 : List Byte) (d1 d2 : Int), k1.length = 8 → k2.length = 8 →
        decode k1 = some d1 → decode k2 = some d2 → 0 ≤ d1 → 0 ≤ d2 →
        (bytesLess k1 k2 = true ↔ d1 < d2)) := by
  have hsecond : ∀ (k1 k2 : List Byte) (d1 d2 : Int), k1.length = 8 → k2.length = 8 →
      decode k1 = some d1 → decode k2 = some d2 → 0 ≤ d1 → 0 ≤ d2 →
      (bytesLess k1 k2 = true ↔ d1 < d2) := by
    intro k1 k2 d1 d2 hl1 hl2 hd1 hd2 h1 h2
    rw [decode_eq_keyTimestamp k1 hl1] at hd1
    rw [decode_eq_keyTimestamp k2 hl2] at hd2
    have e1 : keyTimestamp k1 = d1 := Option.some.inj hd1
    have e2 : keyTimestamp k2 = d2 := Option.some.inj hd2
    obtain ⟨n1, v1⟩ := keyTimestamp_nonneg_iff k1 hl1
    obtain ⟨n2, v2⟩ := keyTimestamp_nonneg_iff k2 hl2
    have b1 : bigEndianValue k1 < 2 ^ 63 := n1.1 (by rw [e1]; exact h1)
    have b2 : bigEndianValue k2 < 2 ^ 63 := n2.1 (by rw [e2]; exact h2)
    rw [bytesLess_iff_value_lt k1 k2 (by rw [hl1, hl2]), ← e1, ← e2, v1 b1, v2 b2]
    omega
  refine ⟨?_, hsecond⟩
  intro t1 t2 h0 h12 h2
  exact (hsecond (encode t1) (encode t2) t1 t2 (encode_length t1) (encode_length t2)
    (decode_encode_all t1 ⟨by omega, by omega⟩) (decode_encode_all t2 ⟨by omega, h2⟩)
    h0 (by omega)).2 h12

/-- C13 at the timestamps 100 and 300: the key of 100 sorts before the key of
300. -/
theorem key_order_agrees_witness :
    (0 : Int) ≤ 100 ∧ (100 : Int) < 300 ∧ (300 : Int) < 2 ^ 63
    ∧ bytesLess (encode 100) (encode 300) = true :=
  ⟨by decide, by decide, by decide,
   key_order_agrees.1 100 300 (by decide) (by decide) (by decide)⟩

/-! ## Lemmas on the set of buckets -/

theorem setBucket_names (tx : Store) (name : GoString) (b : Bucket) :
    (Tx.setBucket tx name b).map Prod.fst = tx.map Prod.fst := by
  unfold Tx.setBucket
  rw [List.map_map]
  apply List.map_congr_left
  intro e _
  by_cases h : e.1 = name
  · simp [h]
  · simp [h]

theorem pruneFwdLog_names (c : Int) (tx : Store) :
    (pruneFwdLog c tx).map Prod.fst = tx.map Prod.fst := by
  unfold pruneFwdLog
  cases Tx.Bucket tx (ascii "circuit-fwd-log") with
  | none => rfl
  | some b => exact setBucket_names tx _ _

theorem clearOldEntries_names (db : Store) (buckets : List GoString) (olderThan now : Int)
    (commitOk : Bool) :
    (clearOldEntries db buckets olderThan now commitOk).1.map Prod.fst = db.map Prod.fst := by
  rw [clearOldEntries_store]
  cases commitOk with
  | false => rfl
  | true =>
    simp only [if_true]
    split
    · exact pruneFwdLog_names _ db
    · rfl

theorem clearForwardingLog_subset (bucket : Bucket) (c : Int) :
    ∀ e ∈ (clearForwardingLog bucket c).1, e ∈ bucket := by
  intro e he
  rw [clearForwardingLog_eq] at he
  exact (List.mem_filter.1 he).1

/-- What a lookup finds after `clearOldEntries`, in terms of the store before. -/
theorem txBucket_clearOldEntries (db : Store) (buckets : List GoString) (olderThan now : Int)
    (commitOk : Bool) (name : GoString) :
    Tx.Bucket (clearOldEntries db buckets olderThan now commitOk).1 name = Tx.Bucket db name
    ∨ ∃ b, Tx.Bucket db name = some b ∧
        Tx.Bucket (clearOldEntries db buckets olderThan now commitOk).1 name
          = some (clearForwardingLog b (cutoffNanoOf now olderThan)).1 := by
  rw [clearOldEntries_store]
  cases commitOk with
  | false => exact Or.inl rfl
  | true =>
    simp only [if_true]
    split
    · rw [txBucket_pruneFwdLog]
      cases h : Tx.Bucket db name with
      | none => exact Or.inl rfl
      | some b =>
        by_cases hn : name = ascii "circuit-fwd-log"
        · exact Or.inr ⟨b, rfl, by simp [hn]⟩
        · exact Or.inl (by simp [hn])
    · exact Or.inl rfl

theorem txBucket_clearBuckets (db : Store) (buckets : List GoString) (commitOk : Bool)
    (name : GoString) :
    Tx.Bucket (clearBuckets db buckets commitOk).1 name
      = if commitOk = true ∧ name ∈ buckets then none else Tx.Bucket db name := by
  rw [clearBuckets_store]
  cases commitOk with
  | false => simp
  | true =>
    simp only [if_true, true_and]
    exact txBucket_filter_notMem db buckets name

/-! ## The claim on the set of buckets -/

/-- C11: the filtered path never creates or destroys a bucket: the bucket
names present after `clearOldEntries` are the names present before, in the
same order (a pruned bucket stays, even when empty); and neither
`clearOldEntries` nor `clearBuckets` adds a bucket or an entry: a bucket found
afterwards was there before, and each of its entries was an entry of it. -/
theorem no_bucket_created (db : Store) (buckets : List GoString) (olderThan now : Int)
    (commitOk : Bool) :
    (clearOldEntries db buckets olderThan now commitOk).1.map Prod.fst = db.map Prod.fst
    ∧ (∀ name, (Tx.Bucket (clearOldEntries db buckets olderThan now commitOk).1 name).isSome
        = (Tx.Bucket db name).isSome)
    ∧ (∀ name b', Tx.Bucket (clearOldEntries db buckets olderThan now commitOk).1 name = some b' →
        ∃ b, Tx.Bucket db name = some b ∧ ∀ e ∈ b', e ∈ b)
    ∧ (∀ name b', Tx.Bucket (clearBuckets db buckets commitOk).1 name = some b' →
        Tx.Bucket db name = some b') := by
  refine ⟨clearOldEntries_names db buckets olderThan now commitOk, ?_, ?_, ?_⟩
  · intro name
    rcases txBucket_clearOldEntries db buckets olderThan now commitOk name with h | ⟨b, hb, h⟩
    · rw [h]
    · rw [h, hb]; rfl
  · intro name b' hb'
    rcases txBucket_clearOldEntries db buckets olderThan now commitOk name with h | ⟨b, hb, h⟩
    · rw [h] at hb'
      exact ⟨b', hb', fun e he => he⟩
    · rw [h] at hb'
      refine ⟨b, hb, ?_⟩
      rw [← Option.some.inj hb']
      exact clearForwardingLog_subset b _
  · intro name b' hb'
    rw [txBucket_clearBuckets] at hb'
    split at hb'
    · cases hb'
    · exact hb'

/-- C11 on a forwarding log whose only entry is older than the cutoff: the
entry is deleted and the bucket is still there, empty. -/
theorem no_bucket_created_witness :
    (clearOldEntries [(ascii "circuit-fwd-log", [([0, 0, 0, 0, 0, 0, 0, 100], [1])])]
        [ascii "circuit-fwd-log"] 0 1000 true).1
      = [(ascii "circuit-fwd-log", [])]
    ∧ (clearOldEntries [(ascii "circuit-fwd-log", [([0, 0, 0, 0, 0, 0, 0, 100], [1])])]
        [ascii "circuit-fwd-log"] 0 1000 true).1.map Prod.fst
      = [ascii "circuit-fwd-log"] :=
  ⟨by decide, (no_bucket_created _ [ascii "circuit-fwd-log"] 0 1000 true).1⟩

/-! ## The claim on failed transactions -/

/-- Whether the commit fails or not, `main` prints the same lines and exits
with the same status: the error `db.Update` returns is dropped by
`clearBuckets` and `clearOldEntries`, which return nothing. -/
theorem main_ignores_commit_error (args : List GoString) (file : Store) (now : Int)
    (openOk : Bool) :
    (main args file now openOk false).exitCode = (main args file now openOk true).exitCode
    ∧ (main args file now openOk false).out = (main args file now openOk true).out := by
  unfold main
  split
  · exact ⟨rfl, rfl⟩
  · split
    · exact ⟨rfl, rfl⟩
    · split
      · exact ⟨rfl, rfl⟩
      · split
        · exact ⟨rfl, rfl⟩
        · split
          · simp only [clearOldEntries_out, and_self]
          · simp only [clearBuckets_out, and_self]

/-- C14, as the claim states it, fails: with a commit that fails, `db.Update`
returns the error, yet `main` prints that the bucket was deleted and that the
cleanup is complete, and exits with status 0. The store is as it was. -/
theorem failed_commit_counterexample :
    (DB.Update exampleDB false
        (fun tx => ([ascii "circuit-fwd-log"].foldl clearBucketsStep (tx, []), none))).2
      = some BoltError.commitFailed
    ∧ main [ascii "clearlogs", ascii "channel.db", ascii "circuit-fwd-log"] exampleDB 0 true false
      = ⟨0, [Line.clearingEntire, Line.deletedBucket (ascii "circuit-fwd-log"), Line.complete],
          exampleDB⟩ :=
  ⟨by decide, by decide⟩

/-- C14 (amended): when the commit of the update transaction fails, the store
is left in its pre-transaction state, by `clearBuckets`, by `clearOldEntries`
and by the whole run of `main`. -/
theorem failed_commit_keeps_store (db : Store) (buckets args : List GoString)
    (olderThan now : Int) (openOk : Bool) :
    (clearBuckets db buckets false).1 = db
    ∧ (clearOldEntries db buckets olderThan now false).1 = db
    ∧ (main args db now openOk false).db = db := by
  refine ⟨rfl, rfl, ?_⟩
  unfold main
  split
  · rfl
  · split
    · rfl
    · split
      · rfl
      · split
        · rfl
        · split <;> rfl

/-! ## Lemmas on the lines per bucket name -/

theorem clearBucketsStep_line (st : TxState) (name : GoString) :
    ∃ l : Line, l.about = some name ∧ (clearBucketsStep st name).2 = st.2 ++ [l] := by
  cases h : Tx.Bucket st.1 name with
  | none =>
    rw [clearBucketsStep_absent st name h]
    exact ⟨Line.bucketAlreadyEmpty name, rfl, rfl⟩
  | some b =>
    rw [clearBucketsStep_present st name b h]
    exact ⟨Line.deletedBucket name, rfl, rfl⟩

theorem clearBuckets_fold_about (buckets : List GoString) (st : TxState) :
    (buckets.foldl clearBucketsStep st).2.map Line.about
      = st.2.map Line.about ++ buckets.map some := by
  induction buckets generalizing st with
  | nil => simp
  | cons name rest ih =>
    obtain ⟨l, hl, hs⟩ := clearBucketsStep_line st name
    rw [List.foldl_cons, ih, hs]
    simp [hl]

/-- The lines one step of `clearOldEntries` prints, as a block. -/
theorem clearOldEntriesStep_block (c o : Int) (st : TxState) (name : GoString) :
    ∃ block : List Line, (clearOldEntriesStep c o st name).2 = st.2 ++ block
      ∧ IsOutcomeBlock st.1 name block := by
  unfold clearOldEntriesStep IsOutcomeBlock
  cases h : Tx.Bucket st.1 name with
  | none =>
    refine ⟨[Line.bucketMissing name], rfl, Line.bucketMissing name, rfl, Or.inl ⟨rfl, ?_⟩⟩
    simp
  | some b =>
    simp only []
    by_cases h1 : name = ascii "circuit-fwd-log"
    · rw [if_pos h1]
      refine ⟨_, rfl, Line.deletedEvents (clearForwardingLog b c).2 name o, rfl,
        Or.inl ⟨rfl, ?_⟩⟩
      rintro ⟨_, h2 | h2⟩
      · rw [h1] at h2; revert h2; decide
      · rw [h1] at h2; revert h2; decide
    · rw [if_neg h1]
      by_cases h2 : name = ascii "closed-chan-bucket" ∨ name = ascii "historical-chan-bucket"
      · rw [if_pos h2]
        exact ⟨_, rfl, Line.notSupportedWouldDelete name, rfl, Or.inr ⟨rfl, rfl, h2⟩⟩
      · rw [if_neg h2]
        exact ⟨_, rfl, Line.notSupported name, rfl, Or.inl ⟨rfl, fun hc => h2 hc.2⟩⟩

theorem isOutcomeBlock_congr (db tx : Store) (name : GoString) (block : List Line)
    (h : (Tx.Bucket tx name).isSome = (Tx.Bucket db name).isSome)
    (hb : IsOutcomeBlock tx name block) : IsOutcomeBlock db name block := by
  unfold IsOutcomeBlock at hb ⊢
  rw [h] at hb
  exact hb

theorem clearOldEntriesStep_isSome (c o : Int) (st : TxState) (name n : GoString) :
    (Tx.Bucket (clearOldEntriesStep c o st name).1 n).isSome = (Tx.Bucket st.1 n).isSome := by
  by_cases hn : name = ascii "circuit-fwd-log"
  · rw [hn, clearOldEntriesStep_fwd, txBucket_pruneFwdLog]
    cases Tx.Bucket st.1 n <;> rfl
  · rw [clearOldEntriesStep_other c o st name hn]

/-- The output of the loop of `clearOldEntries`, block by block. -/
theorem clearOldEntries_fold_blocks (c o : Int) (db : Store) (buckets : List GoString)
    (st : TxState)
    (hinv : ∀ n, (Tx.Bucket st.1 n).isSome = (Tx.Bucket db n).isSome) :
    ∃ blocks : List (List Line),
      (buckets.foldl (clearOldEntriesStep c o) st).2 = st.2 ++ blocks.flatten
      ∧ List.Forall₂ (IsOutcomeBlock db) buckets blocks := by
  induction buckets generalizing st with
  | nil => exact ⟨[], by simp, List.Forall₂.nil⟩
  | cons name rest ih =>
    obtain ⟨block, hb, hblock⟩ := clearOldEntriesStep_block c o st name
    obtain ⟨blocks, hbs, hf⟩ := ih (clearOldEntriesStep c o st name)
      (fun n => by rw [clearOldEntriesStep_isSome]; exact hinv n)
    refine ⟨block :: blocks, ?_, List.Forall₂.cons ?_ hf⟩
    · rw [List.foldl_cons, hbs, hb]
      simp
    · exact isOutcomeBlock_congr db st.1 name block (hinv name) hblock

/-! ## The claim on the lines per bucket name -/

/-- C15, as the claim states it, fails for `clearOldEntries`: asked about the
one name `closed-chan-bucket`, which exists, it prints two lines. -/
theorem one_line_per_name_counterexample :
    (clearOldEntries exampleDB [ascii "closed-chan-bucket"] 86400000000000
        1700000000000000000 true).2
      = [Line.notSupportedWouldDelete (ascii "closed-chan-bucket"), Line.useWithoutFlag]
    ∧ (clearOldEntries exampleDB [ascii "closed-chan-bucket"] 86400000000000
        1700000000000000000 true).2.length ≠ [ascii "closed-chan-bucket"].length :=
  ⟨by decide, by decide⟩

/-- C15 (amended): a run of `clearBuckets` prints exactly one line per
requested bucket name, the i-th line about the i-th name. A run of
`clearOldEntries` prints, per requested name and in the order of the names,
one line about that name, followed by the hint to run without the flag when
the name is `closed-chan-bucket` or `historical-chan-bucket` and that bucket
exists. -/
theorem lines_per_name (db : Store) (buckets : List GoString) (olderThan now : Int)
    (commitOk : Bool) :
    (clearBuckets db buckets commitOk).2.length = buckets.length
    ∧ (clearBuckets db buckets commitOk).2.map Line.about = buckets.map some
    ∧ ∃ blocks : List (List Line),
        (clearOldEntries db buckets olderThan now commitOk).2 = blocks.flatten
        ∧ List.Forall₂ (IsOutcomeBlock db) buckets blocks := by
  have h2 : (clearBuckets db buckets commitOk).2.map Line.about = buckets.map some := by
    rw [clearBuckets_out, clearBuckets_fold_about]
    rfl
  refine ⟨?_, h2, ?_⟩
  · have := congrArg List.length h2
    simpa using this
  · rw [clearOldEntries_out]
    unfold clearOldEntriesTx
    obtain ⟨blocks, hb, hf⟩ := clearOldEntries_fold_blocks (cutoffNanoOf now olderThan)
      olderThan db buckets (db, []) (fun _ => rfl)
    exact ⟨blocks, by rw [hb]; rfl, hf⟩

/-- C15 (amended) on the example database: `clearBuckets` on an existing and a
missing bucket prints one line about each, in that order. -/
theorem lines_per_name_witness :
    (clearBuckets exampleDB [ascii "circuit-fwd-log", ascii "peers"] true).2.map Line.about
      = [some (ascii "circuit-fwd-log"), some (ascii "peers")] :=
  (lines_per_name exampleDB [ascii "circuit-fwd-log", ascii "peers"] 0 0 true).2.1

/-! ## The claim on the cutoff -/

theorem expired_mono (c1 c2 : Int) (h : c1 ≤ c2) (k : List Byte) (he : expired c1 k) :
    expired c2 k := ⟨he.1, lt_of_lt_of_le he.2 h⟩

theorem filter_length_mono {α : Type} (p q : α → Bool) (l : List α)
    (h : ∀ a ∈ l, p a = true → q a = true) :
    (l.filter p).length ≤ (l.filter q).length := by
  induction l with
  | nil => simp
  | cons a rest ih =>
    have ih2 := ih (fun x hx => h x (List.mem_cons_of_mem _ hx))
    by_cases hp : p a = true
    · have hq := h a (List.mem_cons_self _ _) hp
      simp only [List.filter_cons, hp, hq, if_true, List.length_cons]
      omega
    · by_cases hq : q a = true
      · simp only [List.filter_cons, hp, hq, if_true, List.length_cons]
        simp only [Bool.false_eq_true, if_false]
        omega
      · simp only [List.filter_cons, hp, hq]
        simp only [Bool.false_eq_true, if_false]
        exact ih2

/-- C16: for cutoffs `c1 <= c2`, every entry that `clearForwardingLog` deletes
at `c1` it deletes at `c2`, the count returned at `c1` is at most the count
returned at `c2`, and running at `c1` and then at `c2` leaves the bucket that
running at `c2` alone leaves. -/
theorem cutoff_monotone (bucket : Bucket) (c1 c2 : Int) (h : c1 ≤ c2) :
    (∀ e ∈ bucket, e ∉ (clearForwardingLog bucket c1).1 → e ∉ (clearForwardingLog bucket c2).1)
    ∧ (clearForwardingLog bucket c1).2 ≤ (clearForwardingLog bucket c2).2
    ∧ (clearForwardingLog (clearForwardingLog bucket c1).1 c2).1
        = (clearForwardingLog bucket c2).1 := by
  refine ⟨?_, ?_, ?_⟩
  · intro e he h1 h2
    rw [clearForwardingLog_eq] at h1 h2
    have hk2 : ¬ expired c2 e.1 := by simpa using (List.mem_filter.1 h2).2
    apply h1
    refine List.mem_filter.2 ⟨he, ?_⟩
    have hk1 : ¬ expired c1 e.1 := fun hc => hk2 (expired_mono c1 c2 h e.1 hc)
    simpa using hk1
  · rw [clearForwardingLog_eq, clearForwardingLog_eq]
    apply filter_length_mono
    intro e _ he
    have h1 : expired c1 e.1 := by simpa using he
    simpa using expired_mono c1 c2 h e.1 h1
  · rw [clearForwardingLog_eq bucket c1]
    simp only []
    rw [clearForwardingLog_eq, clearForwardingLog_eq]
    simp only [List.filter_filter]
    apply List.filter_congr
    intro e _
    by_cases h2 : expired c2 e.1
    · simp [h2]
    · have h1 : ¬ expired c1 e.1 := fun hc => h2 (expired_mono c1 c2 h e.1 hc)
      simp [h1, h2]

/-- C16 on the forwarding log of the example database, at the cutoffs 150 and
250: one entry goes at 150, two at 250, and both orders of running end with
the 4-byte key and the key for 300. -/
theorem cutoff_monotone_witness :
    (150 : Int) ≤ 250
    ∧ (clearForwardingLog
        [([0, 0, 0, 0], [9]), ([0, 0, 0, 0, 0, 0, 0, 100], [1]),
         ([0, 0, 0, 0, 0, 0, 0, 200], [2]), ([0, 0, 0, 0, 0, 0, 1, 44], [3])] 150).2 = 1
    ∧ (clearForwardingLog (clearForwardingLog
        [([0, 0, 0, 0], [9]), ([0, 0, 0, 0, 0, 0, 0, 100], [1]),
         ([0, 0, 0, 0, 0, 0, 0, 200], [2]), ([0, 0, 0, 0, 0, 0, 1, 44], [3])] 150).1 250).1
      = [([0, 0, 0, 0], [9]), ([0, 0, 0, 0, 0, 0, 1, 44], [3])] :=
  ⟨by decide, by decide,
   (cutoff_monotone _ 150 250 (by decide)).2.2.trans (by decide)⟩

/-! ## Lemmas on keys with the top bit set -/

/-- An 8-byte key whose first byte is `0x80` or greater has a value of at
least 2^63. -/
theorem topBit_value (k : List Byte) (h8 : k.length = 8) (ht : topBitSet k = true) :
    2 ^ 63 ≤ bigEndianValue k := by
  cases k with
  | nil => simp at h8
  | cons b rest =>
    have hr : rest.length = 7 := by simpa using h8
    have hb : 128 ≤ b.val := by simpa [topBitSet] using ht
    rw [bigEndianValue_cons, hr]
    have : 128 * 256 ^ 7 ≤ b.val * 256 ^ 7 := Nat.mul_le_mul_right _ hb
    norm_num at this ⊢
    omega

/-- Such a key decodes to a negative timestamp. -/
theorem topBit_negative (k : List Byte) (h8 : k.length = 8) (ht : topBitSet k = true) :
    keyTimestamp k < 0 := by
  have hv := topBit_value k h8 ht
  have hlt := bigEndianValue_lt k
  rw [h8] at hlt
  norm_num at hlt
  unfold keyTimestamp int64
  omega

theorem bytesLess_asymm (a b : List Byte) (h : bytesLess a b = true) :
    bytesLess b a = false := by
  induction a generalizing b with
  | nil =>
    cases b with
    | nil => simp [bytesLess] at h
    | cons y ys => rfl
  | cons x xs ih =>
    cases b with
    | nil => simp [bytesLess] at h
    | cons y ys =>
      unfold bytesLess at h ⊢
      by_cases hxy : x < y
      · have hyx : ¬ y < x := fun hc => absurd (lt_trans hxy hc) (lt_irrefl _)
        rw [if_neg hyx, if_pos hxy]
      · rw [if_neg hxy] at h
        by_cases hyx : y < x
        · rw [if_pos hyx] at h
          cases h
        · rw [if_neg hyx] at h
          rw [if_neg hyx, if_neg hxy]
          exact ih ys h

/-- A key with the top bit set sorts after every 8-byte key with a
non-negative timestamp. -/
theorem topBit_sorts_last (k k2 : List Byte) (h8 : k.length = 8) (ht : topBitSet k = true)
    (h82 : k2.length = 8) (hn : 0 ≤ keyTimestamp k2) : bytesLess k2 k = true := by
  rw [bytesLess_iff_value_lt k2 k (by rw [h8, h82])]
  have h1 := ((keyTimestamp_nonneg_iff k2 h82).1).1 hn
  have h2 := topBit_value k h8 ht
  omega

theorem mem_result_iff (bucket : Bucket) (c : Int) (e : List Byte × List Byte) :
    e ∈ (clearForwardingLog bucket c).1 ↔ (e ∈ bucket ∧ ¬ expired c e.1) := by
  rw [clearForwardingLog_eq, List.mem_filter]
  simp

/-- In a sorted bucket, a kept entry whose key sorts before the key of a
deleted entry shows that the deleted entries are not an initial segment. -/
theorem not_prefix_of_kept_before_deleted (bucket : Bucket) (c : Int)
    (r e : List Byte × List Byte) (hs : bucket.Sorted)
    (hr : r ∈ (clearForwardingLog bucket c).1)
    (he : e ∈ bucket) (hd : e ∉ (clearForwardingLog bucket c).1)
    (hlt : bytesLess r.1 e.1 = true) : ¬ deletedIsPrefix bucket c := by
  rintro ⟨n, h1, h2⟩
  have hsplit : bucket = bucket.take n ++ bucket.drop n := (List.take_append_drop n bucket).symm
  have he2 : e ∈ bucket.take n := by
    rw [hsplit] at he
    rcases List.mem_append.1 he with h | h
    · exact h
    · exact absurd (h2 e h) hd
  have hr0 : r ∈ bucket := ((mem_result_iff bucket c r).1 hr).1
  have hr2 : r ∈ bucket.drop n := by
    rw [hsplit] at hr0
    rcases List.mem_append.1 hr0 with h | h
    · exact absurd hr (h1 r h)
    · exact h
  unfold Bucket.Sorted at hs
  rw [hsplit, List.pairwise_append] at hs
  have := hs.2.2 e he2 r hr2
  rw [bytesLess_asymm _ _ hlt] at this
  cases this

/-! ## The claim on keys with the top bit set -/

/-- C17, as the claim states it, fails in its last part: in the bucket with
the key for 100 and the key `80 00 00 00 00 00 00 00`, at cutoff 250, both
entries are deleted, so the deleted entries are an initial segment of the key
order (all of it) although an 8-byte key has its top bit set. -/
theorem signed_keys_counterexample :
    Bucket.Sorted [([0, 0, 0, 0, 0, 0, 0, 100], [1]), ([128, 0, 0, 0, 0, 0, 0, 0], [2])]
    ∧ (clearForwardingLog
        [([0, 0, 0, 0, 0, 0, 0, 100], [1]), ([128, 0, 0, 0, 0, 0, 0, 0], [2])] 250).1 = []
    ∧ deletedIsPrefix
        [([0, 0, 0, 0, 0, 0, 0, 100], [1]), ([128, 0, 0, 0, 0, 0, 0, 0], [2])] 250
    ∧ topBitSet [128, 0, 0, 0, 0, 0, 0, 0] = true :=
  ⟨by unfold Bucket.Sorted; decide, by decide, ⟨2, by decide, by decide⟩, by decide⟩

/-- C17 (amended): an 8-byte key whose first byte is `0x80` or greater decodes
to a negative `int64`, so for every cutoff `>= 0` `clearForwardingLog` deletes
it, although it sorts byte-lexicographically after every 8-byte key with a
non-negative timestamp; hence in a bucket (in key order) that also holds an
8-byte key with a timestamp at or after the cutoff, which is kept, the deleted
entries are not an initial segment of the key order. -/
theorem signed_keys (bucket : Bucket) (cutoffNano : Int) (e : List Byte × List Byte)
    (hc : 0 ≤ cutoffNano) (he : e ∈ bucket) (h8 : e.1.length = 8)
    (ht : topBitSet e.1 = true) :
    keyTimestamp e.1 < 0
    ∧ e ∉ (clearForwardingLog bucket cutoffNano).1
    ∧ (∀ x ∈ (clearForwardingLog bucket cutoffNano).1, x.1 ≠ e.1)
    ∧ (∀ k2 : List Byte, k2.length = 8 → 0 ≤ keyTimestamp k2 → bytesLess k2 e.1 = true)
    ∧ (∀ r ∈ bucket, bucket.Sorted → r.1.length = 8 → cutoffNano ≤ keyTimestamp r.1 →
        ¬ deletedIsPrefix bucket cutoffNano) := by
  have hneg := topBit_negative e.1 h8 ht
  have hexp : expired cutoffNano e.1 := ⟨h8, by omega⟩
  have hdel : e ∉ (clearForwardingLog bucket cutoffNano).1 := by
    rw [mem_result_iff]
    exact fun h => h.2 hexp
  refine ⟨hneg, hdel, ?_, ?_, ?_⟩
  · intro x hx hk
    have := ((mem_result_iff bucket cutoffNano x).1 hx).2
    rw [hk] at this
    exact this hexp
  · intro k2 h82 hn
    exact topBit_sorts_last e.1 k2 h8 ht h82 hn
  · intro r hr hs hr8 hrc
    have hkept : r ∈ (clearForwardingLog bucket cutoffNano).1 := by
      rw [mem_result_iff]
      refine ⟨hr, ?_⟩
      rintro ⟨_, hlt⟩
      omega
    exact not_prefix_of_kept_before_deleted bucket cutoffNano r e hs hkept he hdel
      (topBit_sorts_last e.1 r.1 h8 ht hr8 (by omega))

/-- C17 (amended) on the bucket with the key for 300 and the key
`80 00 00 00 00 00 00 00`, at cutoff 250: the second key is deleted, the first
is kept, and the deleted entries are not an initial segment. -/
theorem signed_keys_witness :
    (0 : Int) ≤ 250
    ∧ (clearForwardingLog
        [([0, 0, 0, 0, 0, 0, 1, 44], [3]), ([128, 0, 0, 0, 0, 0, 0, 0], [2])] 250).1
      = [([0, 0, 0, 0, 0, 0, 1, 44], [3])]
    ∧ ¬ deletedIsPrefix
        [([0, 0, 0, 0, 0, 0, 1, 44], [3]), ([128, 0, 0, 0, 0, 0, 0, 0], [2])] 250 :=
  ⟨by decide, by decide,
   (signed_keys [([0, 0, 0, 0, 0, 0, 1, 44], [3]), ([128, 0, 0, 0, 0, 0, 0, 0], [2])] 250
      ([128, 0, 0, 0, 0, 0, 0, 0], [2]) (by decide) (by decide) (by decide) (by decide)).2.2.2.2
      ([0, 0, 0, 0, 0, 0, 1, 44], [3]) (by decide) (by unfold Bucket.Sorted; decide)
      (by decide) (by decide)⟩

end ClearLogs
